import Mathlib

set_option maxHeartbeats 1000000

/-!
Verification development for the approval-distribution gossip engine
(`src/node/network/approval-distribution/src/lib.rs`).

The engine state and every event handler are embedded as executable Lean
functions over association-list finite maps.  Rust `HashMap` / `BTreeMap`
operations are modelled by `lookupA` / `updateA` / `removeA`; `BTreeMap`
range and split operations are modelled by key filters (order-insensitive,
which matches the set semantics of the source).  The `u32` block number
uses `Nat` with explicit saturation where the source saturates.
Replies from collaborators (Approval Voting, Chain API) arrive through
one-shot channels in the source; they are passed to the handlers as
explicit `Option` arguments (`none` models a dropped reply channel).
Outbound effects (reputation reports, gossip sends, collaborator
requests) are collected in an output list in emission order.
-/

namespace ApprovalDist

abbrev Hash := Nat
abbrev BlockNumber := Nat
abbrev ValidatorIndex := Nat
abbrev CandidateIndex := Nat
abbrev PeerId := Nat
abbrev ValidatorSignature := Nat
abbrev AssignmentCert := Nat

/-- Largest `u32` value; `BlockNumber` is `u32` in the source. -/
def u32Max : Nat := 4294967295

/-- The saturating `finalized_number + 1` used by `handle_our_view_change`. -/
def satAdd1 (n : Nat) : Nat := if n + 1 ≤ u32Max then n + 1 else u32Max

/-- Association-list lookup (first binding wins), modelling map `get`. -/
def lookupA {α β : Type} [DecidableEq α] : List (α × β) → α → Option β
  | [], _ => none
  | (k, v) :: rest, a => if k = a then some v else lookupA rest a

/-- Association-list insert-or-replace, modelling map `insert` / entry API. -/
def updateA {α β : Type} [DecidableEq α] : List (α × β) → α → β → List (α × β)
  | [], a, b => [(a, b)]
  | (k, v) :: rest, a, b => if k = a then (a, b) :: rest else (k, v) :: updateA rest a b

/-- Association-list removal of a key, modelling map `remove`. -/
def removeA {α β : Type} [DecidableEq α] : List (α × β) → α → List (α × β)
  | [], _ => []
  | (k, v) :: rest, a => if k = a then removeA rest a else (k, v) :: removeA rest a

structure IndirectAssignmentCert where
  block_hash : Hash
  validator : ValidatorIndex
  cert : AssignmentCert
deriving DecidableEq, Repr

structure IndirectSignedApprovalVote where
  block_hash : Hash
  candidate_index : CandidateIndex
  validator : ValidatorIndex
  signature : ValidatorSignature
deriving DecidableEq, Repr

structure View where
  heads : List Hash
  finalized_number : BlockNumber
deriving DecidableEq, Repr

inductive MessageFingerprint
  | assignment (block_hash : Hash) (candidate_index : CandidateIndex) (validator : ValidatorIndex)
  | approval (block_hash : Hash) (candidate_index : CandidateIndex) (validator : ValidatorIndex)
deriving DecidableEq, Repr

structure Knowledge where
  known_messages : List MessageFingerprint
deriving DecidableEq, Repr

/-- Set insertion into `known_messages`: a no-op when already present. -/
def Knowledge.insert (k : Knowledge) (f : MessageFingerprint) : Knowledge :=
  if f ∈ k.known_messages then k else ⟨f :: k.known_messages⟩

inductive ApprovalState
  | assigned (cert : AssignmentCert)
  | approved (cert : AssignmentCert) (sig : ValidatorSignature)
deriving DecidableEq, Repr

structure CandidateEntry where
  approvals : List (ValidatorIndex × ApprovalState)
deriving DecidableEq, Repr

structure BlockEntry where
  known_by : List (PeerId × Knowledge)
  number : BlockNumber
  parent_hash : Hash
  knowledge : Knowledge
  candidates : List (CandidateIndex × CandidateEntry)
deriving DecidableEq, Repr

abbrev Blocks := List (Hash × BlockEntry)

structure State where
  blocks_by_number : List (BlockNumber × List Hash)
  blocks : Blocks
  peer_views : List (PeerId × View)
deriving DecidableEq, Repr

structure Reputation where
  delta : Int
  reason : String
deriving DecidableEq, Repr

def COST_UNEXPECTED_MESSAGE : Reputation :=
  ⟨-100, "Peer sent an out-of-view assignment or approval"⟩
def COST_DUPLICATE_MESSAGE : Reputation :=
  ⟨-100, "Peer sent identical messages"⟩
def COST_ASSIGNMENT_TOO_FAR_IN_THE_FUTURE : Reputation :=
  ⟨-10, "The vote was valid but too far in the future"⟩
def COST_INVALID_MESSAGE : Reputation :=
  ⟨-500, "The vote was bad"⟩
def BENEFIT_VALID_MESSAGE : Reputation :=
  ⟨10, "Peer sent a valid message"⟩
def BENEFIT_VALID_MESSAGE_FIRST : Reputation :=
  ⟨15, "Valid message with new information"⟩

/-- Outbound effects of a handler, in emission order. -/
inductive Output
  | reportPeer (peer : PeerId) (rep : Reputation)
  | sendAssignments (peers : List PeerId) (msgs : List (IndirectAssignmentCert × CandidateIndex))
  | sendApprovals (peers : List PeerId) (msgs : List IndirectSignedApprovalVote)
  | checkAndImportAssignment (cert : IndirectAssignmentCert)
  | checkAndImportApproval (vote : IndirectSignedApprovalVote)
  | requestBlockHeader (block_hash : Hash)
deriving DecidableEq, Repr

inductive AssignmentCheckResult
  | accepted
  | acceptedDuplicate
  | tooFarInFuture
  | bad
deriving DecidableEq, Repr

inductive ApprovalCheckResult
  | accepted
  | bad
deriving DecidableEq, Repr

/-- Message source; `loc` stands for the source variant `Local`. -/
inductive MessageSource
  | peer (id : PeerId)
  | loc
deriving DecidableEq, Repr

def MessageSource.peerId : MessageSource → Option PeerId
  | .peer id => some id
  | .loc => none

structure BlockApprovalMeta where
  hash : Hash
  number : BlockNumber
deriving DecidableEq, Repr

/-- The idiom `known_by.entry(peer).or_default().known_messages.insert(f)`. -/
def knownByInsertFp (kb : List (PeerId × Knowledge)) (p : PeerId) (f : MessageFingerprint) :
    List (PeerId × Knowledge) :=
  updateA kb p (((lookupA kb p).getD ⟨[]⟩).insert f)

def BlockEntry.recordKnownBy (e : BlockEntry) (p : PeerId) (f : MessageFingerprint) : BlockEntry :=
  { e with known_by := knownByInsertFp e.known_by p f }

/-- The idiom `knowledge.known_messages.insert(f)`. -/
def BlockEntry.recordKnowledge (e : BlockEntry) (f : MessageFingerprint) : BlockEntry :=
  { e with knowledge := e.knowledge.insert f }

/-- Circulation step 7 recipient set: all peers in `peer_views` minus the source peer. -/
def circulateTargets (s : State) (maybe_peer_id : Option PeerId) : List PeerId :=
  (s.peer_views.map Prod.fst).filter fun key =>
    match maybe_peer_id with
    | some id => decide (id ≠ key)
    | none => true

/-- Record the circulated fingerprint under every recipient's `known_by` entry. -/
def recordKnownByAll (e : BlockEntry) (peers : List PeerId) (f : MessageFingerprint) : BlockEntry :=
  peers.foldl (fun e peer => e.recordKnownBy peer f) e

/-- Assignment step 6: `approvals.entry(validator).or_insert_with(Assigned(cert))`,
skipped with a warning when the candidate entry is absent. -/
def assignCandidateUpdate (e : BlockEntry) (claimed_candidate_index : CandidateIndex)
    (validator_index : ValidatorIndex) (cert : AssignmentCert) : BlockEntry :=
  match lookupA e.candidates claimed_candidate_index with
  | some candidate_entry =>
    match lookupA candidate_entry.approvals validator_index with
    | some _ => e
    | none =>
      let ce' : CandidateEntry :=
        ⟨updateA candidate_entry.approvals validator_index (ApprovalState.assigned cert)⟩
      { e with candidates := updateA e.candidates claimed_candidate_index ce' }
  | none => e

/-- Approval step 6: the source first `remove`s the validator's entry and
reinserts only in the `Assigned` case; in the anomaly arm (absent or already
`Approved`) the removed value is not reinserted. -/
def approvalCandidateUpdate (e : BlockEntry) (candidate_index : CandidateIndex)
    (validator_index : ValidatorIndex) (signature : ValidatorSignature) : BlockEntry :=
  match lookupA e.candidates candidate_index with
  | some candidate_entry =>
    let removed := removeA candidate_entry.approvals validator_index
    let approvals2 :=
      match lookupA candidate_entry.approvals validator_index with
      | some (ApprovalState.assigned cert) =>
          updateA removed validator_index (ApprovalState.approved cert signature)
      | _ => removed
    let ce' : CandidateEntry := ⟨approvals2⟩
    { e with candidates := updateA e.candidates candidate_index ce' }
  | none => e

/-- Steps 6 and 7 of `import_and_circulate_assignment`, applied to the entry
as mutated so far; sends the single-element batch unconditionally. -/
def finishAssignment (s : State) (block_hash : Hash) (entry : BlockEntry)
    (outs : List Output) (maybe_peer_id : Option PeerId)
    (assignment : IndirectAssignmentCert) (claimed_candidate_index : CandidateIndex)
    (fingerprint : MessageFingerprint) : State × List Output :=
  let entry2 := assignCandidateUpdate entry claimed_candidate_index assignment.validator assignment.cert
  let peers := circulateTargets s maybe_peer_id
  let entry3 := recordKnownByAll entry2 peers fingerprint
  ({ s with blocks := updateA s.blocks block_hash entry3 },
   outs ++ [Output.sendAssignments peers [(assignment, claimed_candidate_index)]])

/-- Steps 6 and 7 of `import_and_circulate_approval`. -/
def finishApproval (s : State) (block_hash : Hash) (entry : BlockEntry)
    (outs : List Output) (maybe_peer_id : Option PeerId)
    (vote : IndirectSignedApprovalVote) (fingerprint : MessageFingerprint) : State × List Output :=
  let entry2 := approvalCandidateUpdate entry vote.candidate_index vote.validator vote.signature
  let peers := circulateTargets s maybe_peer_id
  let entry3 := recordKnownByAll entry2 peers fingerprint
  ({ s with blocks := updateA s.blocks block_hash entry3 },
   outs ++ [Output.sendApprovals peers [vote]])

/-- Steps 4 and 5 of the peer-sourced assignment import, entered after the
peer-known check (`preOuts` holds the `COST_UNEXPECTED_MESSAGE` report when
the peer's `known_by` entry was vacant). -/
def importAssignmentPeerRest (s : State) (entry : BlockEntry) (preOuts : List Output)
    (checkResult : Option AssignmentCheckResult) (peer_id : PeerId)
    (assignment : IndirectAssignmentCert) (claimed_candidate_index : CandidateIndex)
    (fingerprint : MessageFingerprint) : State × List Output :=
  let block_hash := assignment.block_hash
  if fingerprint ∈ entry.knowledge.known_messages then
    ({ s with blocks := updateA s.blocks block_hash (entry.recordKnownBy peer_id fingerprint) },
     preOuts ++ [Output.reportPeer peer_id BENEFIT_VALID_MESSAGE])
  else
    let outs := preOuts ++ [Output.checkAndImportAssignment assignment]
    match checkResult with
    | none => (s, outs)
    | some AssignmentCheckResult.accepted =>
        finishAssignment s block_hash
          ((entry.recordKnowledge fingerprint).recordKnownBy peer_id fingerprint)
          (outs ++ [Output.reportPeer peer_id BENEFIT_VALID_MESSAGE_FIRST])
          (some peer_id) assignment claimed_candidate_index fingerprint
    | some AssignmentCheckResult.acceptedDuplicate =>
        finishAssignment s block_hash
          ((entry.recordKnowledge fingerprint).recordKnownBy peer_id fingerprint)
          outs (some peer_id) assignment claimed_candidate_index fingerprint
    | some AssignmentCheckResult.tooFarInFuture =>
        (s, outs ++ [Output.reportPeer peer_id COST_ASSIGNMENT_TOO_FAR_IN_THE_FUTURE])
    | some AssignmentCheckResult.bad =>
        (s, outs ++ [Output.reportPeer peer_id COST_INVALID_MESSAGE])

def State.import_and_circulate_assignment (s : State)
    (checkResult : Option AssignmentCheckResult) (source : MessageSource)
    (assignment : IndirectAssignmentCert) (claimed_candidate_index : CandidateIndex) :
    State × List Output :=
  let block_hash := assignment.block_hash
  let validator_index := assignment.validator
  match lookupA s.blocks block_hash with
  | none =>
    match source.peerId with
    | some peer_id => (s, [Output.reportPeer peer_id COST_UNEXPECTED_MESSAGE])
    | none => (s, [])
  | some entry =>
    let fingerprint :=
      MessageFingerprint.assignment block_hash claimed_candidate_index validator_index
    match source.peerId with
    | some peer_id =>
      match lookupA entry.known_by peer_id with
      | some knowledge =>
        if fingerprint ∈ knowledge.known_messages then
          (s, [Output.reportPeer peer_id COST_DUPLICATE_MESSAGE])
        else
          importAssignmentPeerRest s entry [] checkResult peer_id
            assignment claimed_candidate_index fingerprint
      | none =>
          importAssignmentPeerRest s entry [Output.reportPeer peer_id COST_UNEXPECTED_MESSAGE]
            checkResult peer_id assignment claimed_candidate_index fingerprint
    | none =>
      finishAssignment s block_hash (entry.recordKnowledge fingerprint) [] none
        assignment claimed_candidate_index fingerprint

/-- Steps 4 and 5 of the peer-sourced approval import, entered after both the
assignment-precedence check and the peer-known check. -/
def importApprovalPeerRest (s : State) (entry : BlockEntry) (preOuts : List Output)
    (checkResult : Option ApprovalCheckResult) (peer_id : PeerId)
    (vote : IndirectSignedApprovalVote) (fingerprint : MessageFingerprint) :
    State × List Output :=
  let block_hash := vote.block_hash
  if fingerprint ∈ entry.knowledge.known_messages then
    ({ s with blocks := updateA s.blocks block_hash (entry.recordKnownBy peer_id fingerprint) },
     preOuts ++ [Output.reportPeer peer_id BENEFIT_VALID_MESSAGE])
  else
    let outs := preOuts ++ [Output.checkAndImportApproval vote]
    match checkResult with
    | none => (s, outs)
    | some ApprovalCheckResult.accepted =>
        finishApproval s block_hash
          ((entry.recordKnowledge fingerprint).recordKnownBy peer_id fingerprint)
          (outs ++ [Output.reportPeer peer_id BENEFIT_VALID_MESSAGE_FIRST])
          (some peer_id) vote fingerprint
    | some ApprovalCheckResult.bad =>
        (s, outs ++ [Output.reportPeer peer_id COST_INVALID_MESSAGE])

def State.import_and_circulate_approval (s : State)
    (checkResult : Option ApprovalCheckResult) (source : MessageSource)
    (vote : IndirectSignedApprovalVote) : State × List Output :=
  let block_hash := vote.block_hash
  let validator_index := vote.validator
  let candidate_index := vote.candidate_index
  let entryOpt :=
    match lookupA s.blocks block_hash with
    | some entry =>
        if (lookupA entry.candidates candidate_index).isSome then some entry else none
    | none => none
  match entryOpt with
  | none =>
    match source.peerId with
    | some peer_id => (s, [Output.reportPeer peer_id COST_UNEXPECTED_MESSAGE])
    | none => (s, [])
  | some entry =>
    let fingerprint := MessageFingerprint.approval block_hash candidate_index validator_index
    match source.peerId with
    | some peer_id =>
      let assignment_fingerprint :=
        MessageFingerprint.assignment block_hash candidate_index validator_index
      if assignment_fingerprint ∈ entry.knowledge.known_messages then
        match lookupA entry.known_by peer_id with
        | some knowledge =>
          if fingerprint ∈ knowledge.known_messages then
            (s, [Output.reportPeer peer_id COST_DUPLICATE_MESSAGE])
          else
            importApprovalPeerRest s entry [] checkResult peer_id vote fingerprint
        | none =>
            importApprovalPeerRest s entry [Output.reportPeer peer_id COST_UNEXPECTED_MESSAGE]
              checkResult peer_id vote fingerprint
      else
        (s, [Output.reportPeer peer_id COST_UNEXPECTED_MESSAGE])
    | none =>
      finishApproval s block_hash (entry.recordKnowledge fingerprint) [] none vote fingerprint

/-- The assignments batch built by `send_gossip_messages_to_peer`: the source
loop pushes into `assignments` only in the `Assigned` arm; the push-loop over
nested iterators is rendered as nested `bind` / `filterMap`. -/
def gossipAssignments (entries : Blocks) (blocks : List Hash) :
    List (IndirectAssignmentCert × CandidateIndex) :=
  blocks.flatMap fun block =>
    match lookupA entries block with
    | none => []
    | some entry =>
      entry.candidates.flatMap fun pce =>
        pce.2.approvals.filterMap fun pva =>
          match pva.2 with
          | ApprovalState.assigned cert =>
              some (⟨block, pva.1, cert⟩, pce.1)
          | ApprovalState.approved _ _ => none

/-- The approvals batch built by `send_gossip_messages_to_peer`: the source
loop pushes into `approvals` only in the `Approved` arm. -/
def gossipApprovals (entries : Blocks) (blocks : List Hash) :
    List IndirectSignedApprovalVote :=
  blocks.flatMap fun block =>
    match lookupA entries block with
    | none => []
    | some entry =>
      entry.candidates.flatMap fun pce =>
        pce.2.approvals.filterMap fun pva =>
          match pva.2 with
          | ApprovalState.assigned _ => none
          | ApprovalState.approved _ signature =>
              some ⟨block, pce.1, pva.1, signature⟩

def send_gossip_messages_to_peer (entries : Blocks) (peer_id : PeerId)
    (blocks : List Hash) : List Output :=
  let assignments := gossipAssignments entries blocks
  let approvals := gossipApprovals entries blocks
  (if assignments = [] then [] else [Output.sendAssignments [peer_id] assignments]) ++
  (if approvals = [] then [] else [Output.sendApprovals [peer_id] approvals])

/-- One backward walk of `unify_with_peer` from a head, with explicit fuel.
The source loop terminates because each iteration inserts the peer into a
block's `known_by` that did not contain it, so fuel of one more than the
number of tracked blocks never runs out. -/
def unifyWalk (peer_id : PeerId) (view_finalized_number : BlockNumber) :
    Nat → Blocks → Hash → Blocks × List Hash
  | 0, entries, _ => (entries, [])
  | fuel + 1, entries, block =>
    match lookupA entries block with
    | some entry =>
      if view_finalized_number ≤ entry.number then
        match lookupA entry.known_by peer_id with
        | some _ => (entries, [])
        | none =>
          let entry' := { entry with known_by := updateA entry.known_by peer_id entry.knowledge }
          let rest := unifyWalk peer_id view_finalized_number fuel
            (updateA entries block entry') entry.parent_hash
          (rest.1, block :: rest.2)
      else (entries, [])
    | none => (entries, [])

def unifyHeadStep (peer_id : PeerId) (fin : BlockNumber) (acc : Blocks × List Hash)
    (head : Hash) : Blocks × List Hash :=
  let w := unifyWalk peer_id fin (acc.1.length + 1) acc.1 head
  (w.1, acc.2 ++ w.2)

def unify_with_peer (entries : Blocks) (peer_id : PeerId) (view : View) :
    Blocks × List Output :=
  let walked := view.heads.foldl (unifyHeadStep peer_id view.finalized_number) (entries, [])
  (walked.1, send_gossip_messages_to_peer walked.1 peer_id walked.2)

/-- One step of the peer-view-change cleanup: drop the peer from the
`known_by` of one finalized-range block. -/
def cleanupStep (peer_id : PeerId) (b : Blocks) (h : Hash) : Blocks :=
  match lookupA b h with
  | some entry => updateA b h { entry with known_by := removeA entry.known_by peer_id }
  | none => b

def State.handle_peer_view_change (s : State) (peer_id : PeerId) (view : View) :
    State × List Output :=
  let u := unify_with_peer s.blocks peer_id view
  let finalized_number := view.finalized_number
  let pv' := updateA s.peer_views peer_id view
  let low_hashes :=
    (s.blocks_by_number.filter fun p => decide (p.1 ≤ finalized_number)).flatMap Prod.snd
  let blocks2 := low_hashes.foldl (cleanupStep peer_id) u.1
  ({ s with blocks := blocks2, peer_views := pv' }, u.2)

def State.handle_our_view_change (s : State) (view : View) : State × List Output :=
  let split_point := satAdd1 view.finalized_number
  let old_blocks := s.blocks_by_number.filter fun p => decide (p.1 < split_point)
  let new_bbn := s.blocks_by_number.filter fun p => ! decide (p.1 < split_point)
  let removed_hashes := old_blocks.flatMap Prod.snd
  let blocks' := removed_hashes.foldl (fun (b : Blocks) h => removeA b h) s.blocks
  ({ s with blocks_by_number := new_bbn, blocks := blocks' }, [])

def State.handle_peer_connected (s : State) (peer_id : PeerId) : State × List Output :=
  match lookupA s.peer_views peer_id with
  | some _ => (s, [])
  | none => ({ s with peer_views := updateA s.peer_views peer_id ⟨[], 0⟩ }, [])

def State.handle_peer_disconnected (s : State) (peer_id : PeerId) : State × List Output :=
  ({ s with
      peer_views := removeA s.peer_views peer_id,
      blocks := s.blocks.map fun p =>
        (p.1, { p.2 with known_by := removeA p.2.known_by peer_id }) }, [])

/-- Registration of one `NewBlocks` meta: skip when already tracked, request
the parent header (reply attached), skip on a missing header, otherwise insert
a fresh entry and append the hash to `blocks_by_number`. -/
def newBlocksStep (acc : State × List Output) (mp : BlockApprovalMeta × Option Hash) :
    State × List Output :=
  match lookupA acc.1.blocks mp.1.hash with
  | some _ => acc
  | none =>
    let outs := acc.2 ++ [Output.requestBlockHeader mp.1.hash]
    match mp.2 with
    | none => (acc.1, outs)
    | some parent_hash =>
      let entry : BlockEntry :=
        { known_by := [], number := mp.1.number, parent_hash := parent_hash,
          knowledge := ⟨[]⟩, candidates := [] }
      let blocks' := updateA acc.1.blocks mp.1.hash entry
      let bbn' :=
        match lookupA acc.1.blocks_by_number mp.1.number with
        | some l => updateA acc.1.blocks_by_number mp.1.number (l ++ [mp.1.hash])
        | none => updateA acc.1.blocks_by_number mp.1.number [mp.1.hash]
      ({ acc.1 with blocks := blocks', blocks_by_number := bbn' }, outs)

/-- Unification of one connected peer against the freshly added hashes. -/
def newBlocksUnifyStep (hashes : List Hash) (acc : State × List Output)
    (pv : PeerId × View) : State × List Output :=
  let view_intersection : View :=
    ⟨pv.2.heads.filter (fun h => decide (h ∈ hashes)), pv.2.finalized_number⟩
  let u := unify_with_peer acc.1.blocks pv.1 view_intersection
  ({ acc.1 with blocks := u.1 }, acc.2 ++ u.2)

/-- The handler `handle_new_blocks`; each meta carries its Chain-API reply (`none` models
a failed or missing header, which skips the meta entirely). -/
def State.handle_new_blocks (s : State) (metas : List (BlockApprovalMeta × Option Hash)) :
    State × List Output :=
  let hashes := metas.map fun m => m.1.hash
  let phase1 := metas.foldl newBlocksStep (s, [])
  phase1.1.peer_views.foldl (newBlocksUnifyStep hashes) (phase1.1, phase1.2)

inductive Event
  | peerConnected (p : PeerId)
  | peerDisconnected (p : PeerId)
  | peerViewChange (p : PeerId) (v : View)
  | ourViewChange (v : View)
  | peerAssignments (p : PeerId)
      (msgs : List ((IndirectAssignmentCert × CandidateIndex) × Option AssignmentCheckResult))
  | peerApprovals (p : PeerId)
      (msgs : List (IndirectSignedApprovalVote × Option ApprovalCheckResult))
  | newBlocks (metas : List (BlockApprovalMeta × Option Hash))
  | distributeAssignment (cert : IndirectAssignmentCert) (candidate_index : CandidateIndex)
  | distributeApproval (vote : IndirectSignedApprovalVote)

/-- One step of `process_incoming_peer_message` over a batch of assignments. -/
def importAssignmentStep (p : PeerId) (acc : State × List Output)
    (m : (IndirectAssignmentCert × CandidateIndex) × Option AssignmentCheckResult) :
    State × List Output :=
  let r := acc.1.import_and_circulate_assignment m.2 (MessageSource.peer p) m.1.1 m.1.2
  (r.1, acc.2 ++ r.2)

/-- One step of `process_incoming_peer_message` over a batch of approvals. -/
def importApprovalStep (p : PeerId) (acc : State × List Output)
    (m : IndirectSignedApprovalVote × Option ApprovalCheckResult) : State × List Output :=
  let r := acc.1.import_and_circulate_approval m.2 (MessageSource.peer p) m.1
  (r.1, acc.2 ++ r.2)

/-- One iteration of the event loop: dispatch an inbound event (with its
collaborator replies attached) to the matching handler. -/
def step (s : State) : Event → State × List Output
  | Event.peerConnected p => s.handle_peer_connected p
  | Event.peerDisconnected p => s.handle_peer_disconnected p
  | Event.peerViewChange p v => s.handle_peer_view_change p v
  | Event.ourViewChange v => s.handle_our_view_change v
  | Event.peerAssignments p msgs => msgs.foldl (importAssignmentStep p) (s, [])
  | Event.peerApprovals p msgs => msgs.foldl (importApprovalStep p) (s, [])
  | Event.newBlocks metas => s.handle_new_blocks metas
  | Event.distributeAssignment cert candidate_index =>
    s.import_and_circulate_assignment none MessageSource.loc cert candidate_index
  | Event.distributeApproval vote =>
    s.import_and_circulate_approval none MessageSource.loc vote

def initialState : State := ⟨[], [], []⟩

/-- States reachable by the event loop from the fresh `State::default()`. -/
inductive Reachable : State → Prop
  | init : Reachable initialState
  | next (s : State) (ev : Event) : Reachable s → Reachable (step s ev).1

theorem lookupA_updateA {α β : Type} [DecidableEq α] (l : List (α × β)) (a a' : α) (b : β) :
    lookupA (updateA l a b) a' = if a = a' then some b else lookupA l a' := by
  induction l with
  | nil => simp [updateA, lookupA]
  | cons p rest ih =>
    obtain ⟨k, v⟩ := p
    by_cases hk : k = a
    · subst hk
      by_cases ha : k = a' <;> simp [updateA, lookupA, ha]
    · by_cases ha : a = a' <;> by_cases hk' : k = a' <;>
        simp_all [updateA, lookupA]

theorem lookupA_updateA_self {α β : Type} [DecidableEq α] (l : List (α × β)) (a : α) (b : β) :
    lookupA (updateA l a b) a = some b := by
  simp [lookupA_updateA]

theorem lookupA_updateA_ne {α β : Type} [DecidableEq α] (l : List (α × β)) {a a' : α} (b : β)
    (h : a ≠ a') : lookupA (updateA l a b) a' = lookupA l a' := by
  simp [lookupA_updateA, h]

theorem lookupA_removeA {α β : Type} [DecidableEq α] (l : List (α × β)) (a a' : α) :
    lookupA (removeA l a) a' = if a = a' then none else lookupA l a' := by
  induction l with
  | nil => simp [removeA, lookupA]
  | cons p rest ih =>
    obtain ⟨k, v⟩ := p
    by_cases hk : k = a
    · subst hk
      by_cases ha : k = a' <;> simp_all [removeA, lookupA]
    · by_cases ha : a = a' <;> by_cases hk' : k = a' <;>
        simp_all [removeA, lookupA]

theorem lookupA_map {α β γ : Type} [DecidableEq α] (l : List (α × β)) (g : β → γ) (a : α) :
    lookupA (l.map fun p => (p.1, g p.2)) a = (lookupA l a).map g := by
  induction l with
  | nil => simp [lookupA]
  | cons p rest ih => by_cases h : p.1 = a <;> simp [lookupA, h, ih]

theorem lookupA_mem {α β : Type} [DecidableEq α] {l : List (α × β)} {a : α} {b : β}
    (h : lookupA l a = some b) : (a, b) ∈ l := by
  induction l with
  | nil => simp [lookupA] at h
  | cons p rest ih =>
    obtain ⟨k, v⟩ := p
    by_cases hk : k = a
    · subst hk
      simp only [lookupA, if_pos] at h
      obtain rfl : v = b := Option.some.inj h
      exact List.mem_cons_self _ _
    · simp only [lookupA, hk, if_neg, not_false_iff] at h
      exact List.mem_cons_of_mem _ (ih h)

theorem lookupA_foldl_removeA {α β : Type} [DecidableEq α] (hs : List α) (l : List (α × β))
    (a : α) :
    lookupA (hs.foldl (fun b h => removeA b h) l) a =
      if a ∈ hs then none else lookupA l a := by
  induction hs generalizing l with
  | nil => simp
  | cons x t ih =>
    rw [List.foldl_cons, ih, lookupA_removeA]
    by_cases h1 : a ∈ t <;> by_cases h2 : x = a <;>
      simp [List.mem_cons, h1, h2]
    rw [if_neg fun h => h2 h.symm]

theorem Knowledge.mem_insert {k : Knowledge} {f f' : MessageFingerprint} :
    f' ∈ (k.insert f).known_messages ↔ f' = f ∨ f' ∈ k.known_messages := by
  unfold Knowledge.insert
  split_ifs with h
  · constructor
    · exact fun hm => Or.inr hm
    · rintro (rfl | hm)
      · exact h
      · exact hm
  · exact List.mem_cons

theorem Knowledge.mem_insert_self (k : Knowledge) (f : MessageFingerprint) :
    f ∈ (k.insert f).known_messages :=
  Knowledge.mem_insert.mpr (Or.inl rfl)

theorem Knowledge.mem_insert_of_mem {k : Knowledge} {f f' : MessageFingerprint}
    (h : f' ∈ k.known_messages) : f' ∈ (k.insert f).known_messages :=
  Knowledge.mem_insert.mpr (Or.inr h)

theorem lookupA_knownByInsertFp (kb : List (PeerId × Knowledge)) (p q : PeerId)
    (f : MessageFingerprint) :
    lookupA (knownByInsertFp kb p f) q =
      if p = q then some (((lookupA kb p).getD ⟨[]⟩).insert f) else lookupA kb q :=
  lookupA_updateA ..

theorem recordKnownBy_knowledge (e : BlockEntry) (p : PeerId) (f : MessageFingerprint) :
    (e.recordKnownBy p f).knowledge = e.knowledge := rfl

theorem recordKnowledge_known_by (e : BlockEntry) (f : MessageFingerprint) :
    (e.recordKnowledge f).known_by = e.known_by := rfl

theorem assignCandidateUpdate_knowledge (e : BlockEntry) (ci : CandidateIndex)
    (vi : ValidatorIndex) (cert : AssignmentCert) :
    (assignCandidateUpdate e ci vi cert).knowledge = e.knowledge := by
  unfold assignCandidateUpdate
  split
  · split <;> rfl
  · rfl

theorem assignCandidateUpdate_known_by (e : BlockEntry) (ci : CandidateIndex)
    (vi : ValidatorIndex) (cert : AssignmentCert) :
    (assignCandidateUpdate e ci vi cert).known_by = e.known_by := by
  unfold assignCandidateUpdate
  split
  · split <;> rfl
  · rfl

theorem approvalCandidateUpdate_knowledge (e : BlockEntry) (ci : CandidateIndex)
    (vi : ValidatorIndex) (sig : ValidatorSignature) :
    (approvalCandidateUpdate e ci vi sig).knowledge = e.knowledge := by
  unfold approvalCandidateUpdate
  split <;> rfl

theorem approvalCandidateUpdate_known_by (e : BlockEntry) (ci : CandidateIndex)
    (vi : ValidatorIndex) (sig : ValidatorSignature) :
    (approvalCandidateUpdate e ci vi sig).known_by = e.known_by := by
  unfold approvalCandidateUpdate
  split <;> rfl

theorem recordKnownByAll_cons (e : BlockEntry) (p : PeerId) (t : List PeerId)
    (f : MessageFingerprint) :
    recordKnownByAll e (p :: t) f = recordKnownByAll (e.recordKnownBy p f) t f := rfl

theorem recordKnownByAll_knowledge (e : BlockEntry) (peers : List PeerId)
    (f : MessageFingerprint) : (recordKnownByAll e peers f).knowledge = e.knowledge := by
  induction peers generalizing e with
  | nil => rfl
  | cons p t ih => rw [recordKnownByAll_cons, ih, recordKnownBy_knowledge]

/-- Spec invariant 3: every fingerprint a peer is recorded as knowing for a
block is also in the block's own knowledge. -/
def entryInv (e : BlockEntry) : Prop :=
  ∀ p k, lookupA e.known_by p = some k →
    ∀ f, f ∈ k.known_messages → f ∈ e.knowledge.known_messages

def blocksInv (bl : Blocks) : Prop :=
  ∀ h e, lookupA bl h = some e → entryInv e

theorem entryInv_recordKnownBy {e : BlockEntry} (he : entryInv e) {f : MessageFingerprint}
    (hf : f ∈ e.knowledge.known_messages) (p : PeerId) : entryInv (e.recordKnownBy p f) := by
  intro q k hk f' hf'
  rw [recordKnownBy_knowledge]
  unfold BlockEntry.recordKnownBy at hk
  simp only [lookupA_knownByInsertFp] at hk
  by_cases hpq : p = q
  · rw [if_pos hpq] at hk
    obtain rfl := Option.some.inj hk
    rcases Knowledge.mem_insert.mp hf' with rfl | hmem
    · exact hf
    · cases hl : lookupA e.known_by p with
      | none => rw [hl] at hmem; simp at hmem
      | some k0 => rw [hl] at hmem; exact he p k0 hl f' hmem
  · rw [if_neg hpq] at hk
    exact he q k hk f' hf'

theorem entryInv_recordKnowledge {e : BlockEntry} (he : entryInv e) (f : MessageFingerprint) :
    entryInv (e.recordKnowledge f) := by
  intro q k hk f' hf'
  rw [recordKnowledge_known_by] at hk
  exact Knowledge.mem_insert_of_mem (he q k hk f' hf')

theorem entryInv_recordKnowledge_recordKnownBy {e : BlockEntry} (he : entryInv e)
    (f : MessageFingerprint) (p : PeerId) :
    entryInv ((e.recordKnowledge f).recordKnownBy p f) :=
  entryInv_recordKnownBy (entryInv_recordKnowledge he f)
    (Knowledge.mem_insert_self e.knowledge f) p

theorem entryInv_assignCandidateUpdate {e : BlockEntry} (he : entryInv e)
    (ci : CandidateIndex) (vi : ValidatorIndex) (cert : AssignmentCert) :
    entryInv (assignCandidateUpdate e ci vi cert) := by
  intro q k hk f hf
  rw [assignCandidateUpdate_known_by] at hk
  rw [assignCandidateUpdate_knowledge]
  exact he q k hk f hf

theorem entryInv_approvalCandidateUpdate {e : BlockEntry} (he : entryInv e)
    (ci : CandidateIndex) (vi : ValidatorIndex) (sig : ValidatorSignature) :
    entryInv (approvalCandidateUpdate e ci vi sig) := by
  intro q k hk f hf
  rw [approvalCandidateUpdate_known_by] at hk
  rw [approvalCandidateUpdate_knowledge]
  exact he q k hk f hf

theorem entryInv_recordKnownByAll {e : BlockEntry} (he : entryInv e) {f : MessageFingerprint}
    (hf : f ∈ e.knowledge.known_messages) (peers : List PeerId) :
    entryInv (recordKnownByAll e peers f) := by
  induction peers generalizing e with
  | nil => exact he
  | cons p t ih =>
    rw [recordKnownByAll_cons]
    exact ih (entryInv_recordKnownBy he hf p) hf

theorem entryInv_cloneInsert {e : BlockEntry} (he : entryInv e) (p : PeerId) :
    entryInv { e with known_by := updateA e.known_by p e.knowledge } := by
  intro q k hk f hf
  simp only [lookupA_updateA] at hk
  by_cases hpq : p = q
  · rw [if_pos hpq] at hk
    obtain rfl := Option.some.inj hk
    exact hf
  · rw [if_neg hpq] at hk
    exact he q k hk f hf

theorem entryInv_removeKnownBy {e : BlockEntry} (he : entryInv e) (p : PeerId) :
    entryInv { e with known_by := removeA e.known_by p } := by
  intro q k hk f hf
  simp only [lookupA_removeA] at hk
  by_cases hpq : p = q
  · rw [if_pos hpq] at hk; cases hk
  · rw [if_neg hpq] at hk
    exact he q k hk f hf

theorem blocksInv_updateA {bl : Blocks} (hb : blocksInv bl) {e : BlockEntry}
    (he : entryInv e) (h : Hash) : blocksInv (updateA bl h e) := by
  intro h' e' hl
  rw [lookupA_updateA] at hl
  by_cases hh : h = h'
  · rw [if_pos hh] at hl
    obtain rfl := Option.some.inj hl
    exact he
  · rw [if_neg hh] at hl
    exact hb h' e' hl

/-- Generic preservation of a predicate on the first fold component. -/
theorem foldl_fst_inv {σ τ α : Type _} (Inv : σ → Prop) (g : σ × τ → α → σ × τ)
    (hg : ∀ acc x, Inv acc.1 → Inv (g acc x).1) :
    ∀ (l : List α) (acc : σ × τ), Inv acc.1 → Inv (l.foldl g acc).1 := by
  intro l
  induction l with
  | nil => exact fun acc h => h
  | cons a t ih => exact fun acc h => ih (g acc a) (hg acc a h)

theorem foldl_inv {σ α : Type _} (Inv : σ → Prop) (g : σ → α → σ)
    (hg : ∀ acc x, Inv acc → Inv (g acc x)) :
    ∀ (l : List α) (acc : σ), Inv acc → Inv (l.foldl g acc) := by
  intro l
  induction l with
  | nil => exact fun acc h => h
  | cons a t ih => exact fun acc h => ih (g acc a) (hg acc a h)

theorem blocksInv_unifyWalk (p : PeerId) (fin : BlockNumber) (fuel : Nat) :
    ∀ (bl : Blocks) (blk : Hash), blocksInv bl → blocksInv (unifyWalk p fin fuel bl blk).1 := by
  induction fuel with
  | zero => intro bl blk h; exact h
  | succ n ih =>
    intro bl blk h
    unfold unifyWalk
    cases hl : lookupA bl blk with
    | none => exact h
    | some entry =>
      dsimp only
      split_ifs with hn
      · cases hkb : lookupA entry.known_by p with
        | some k => exact h
        | none =>
          dsimp only
          exact ih _ _ (blocksInv_updateA h (entryInv_cloneInsert (h blk entry hl) p) blk)
      · exact h

theorem blocksInv_unify_with_peer (bl : Blocks) (p : PeerId) (v : View)
    (h : blocksInv bl) : blocksInv (unify_with_peer bl p v).1 := by
  unfold unify_with_peer
  dsimp only
  refine foldl_fst_inv blocksInv (unifyHeadStep p v.finalized_number) ?_ v.heads (bl, []) h
  intro acc x hacc
  exact blocksInv_unifyWalk p v.finalized_number _ acc.1 x hacc

theorem blocksInv_finishAssignment {s : State} (hs : blocksInv s.blocks) (bh : Hash)
    {entry : BlockEntry} (he : entryInv entry) {f : MessageFingerprint}
    (hf : f ∈ entry.knowledge.known_messages) (outs : List Output) (mp : Option PeerId)
    (a : IndirectAssignmentCert) (ci : CandidateIndex) :
    blocksInv (finishAssignment s bh entry outs mp a ci f).1.blocks := by
  unfold finishAssignment
  dsimp only
  apply blocksInv_updateA hs
  apply entryInv_recordKnownByAll (entryInv_assignCandidateUpdate he ci a.validator a.cert)
  rw [assignCandidateUpdate_knowledge]
  exact hf

theorem blocksInv_finishApproval {s : State} (hs : blocksInv s.blocks) (bh : Hash)
    {entry : BlockEntry} (he : entryInv entry) {f : MessageFingerprint}
    (hf : f ∈ entry.knowledge.known_messages) (outs : List Output) (mp : Option PeerId)
    (vote : IndirectSignedApprovalVote) :
    blocksInv (finishApproval s bh entry outs mp vote f).1.blocks := by
  unfold finishApproval
  dsimp only
  apply blocksInv_updateA hs
  apply entryInv_recordKnownByAll
    (entryInv_approvalCandidateUpdate he vote.candidate_index vote.validator vote.signature)
  rw [approvalCandidateUpdate_knowledge]
  exact hf

theorem blocksInv_importAssignmentPeerRest {s : State} (hs : blocksInv s.blocks)
    {entry : BlockEntry} (he : entryInv entry) (preOuts : List Output)
    (r : Option AssignmentCheckResult) (p : PeerId) (a : IndirectAssignmentCert)
    (ci : CandidateIndex) (f : MessageFingerprint) :
    blocksInv (importAssignmentPeerRest s entry preOuts r p a ci f).1.blocks := by
  unfold importAssignmentPeerRest
  split_ifs with hmem
  · dsimp only
    exact blocksInv_updateA hs (entryInv_recordKnownBy he hmem p) _
  · cases r with
    | none => exact hs
    | some result =>
      cases result with
      | accepted =>
        exact blocksInv_finishAssignment hs _ (entryInv_recordKnowledge_recordKnownBy he f p)
          (Knowledge.mem_insert_self entry.knowledge f) _ _ a ci
      | acceptedDuplicate =>
        exact blocksInv_finishAssignment hs _ (entryInv_recordKnowledge_recordKnownBy he f p)
          (Knowledge.mem_insert_self entry.knowledge f) _ _ a ci
      | tooFarInFuture => exact hs
      | bad => exact hs

theorem blocksInv_import_assignment {s : State} (hs : blocksInv s.blocks)
    (r : Option AssignmentCheckResult) (src : MessageSource) (a : IndirectAssignmentCert)
    (ci : CandidateIndex) :
    blocksInv (s.import_and_circulate_assignment r src a ci).1.blocks := by
  unfold State.import_and_circulate_assignment
  dsimp only
  cases hl : lookupA s.blocks a.block_hash with
  | none =>
    dsimp only
    cases src.peerId <;> dsimp only <;> exact hs
  | some entry =>
    dsimp only
    have he : entryInv entry := hs _ _ hl
    cases src.peerId with
    | none =>
      dsimp only
      exact blocksInv_finishAssignment hs _ (entryInv_recordKnowledge he _)
        (Knowledge.mem_insert_self entry.knowledge _) _ _ a ci
    | some p =>
      dsimp only
      cases hkb : lookupA entry.known_by p with
      | some k =>
        dsimp only
        split_ifs with hdup
        · exact hs
        · exact blocksInv_importAssignmentPeerRest hs he _ r p a ci _
      | none =>
        dsimp only
        exact blocksInv_importAssignmentPeerRest hs he _ r p a ci _

theorem blocksInv_importApprovalPeerRest {s : State} (hs : blocksInv s.blocks)
    {entry : BlockEntry} (he : entryInv entry) (preOuts : List Output)
    (r : Option ApprovalCheckResult) (p : PeerId) (vote : IndirectSignedApprovalVote)
    (f : MessageFingerprint) :
    blocksInv (importApprovalPeerRest s entry preOuts r p vote f).1.blocks := by
  unfold importApprovalPeerRest
  split_ifs with hmem
  · dsimp only
    exact blocksInv_updateA hs (entryInv_recordKnownBy he hmem p) _
  · cases r with
    | none => exact hs
    | some result =>
      cases result with
      | accepted =>
        exact blocksInv_finishApproval hs _ (entryInv_recordKnowledge_recordKnownBy he f p)
          (Knowledge.mem_insert_self entry.knowledge f) _ _ vote
      | bad => exact hs

theorem blocksInv_import_approval {s : State} (hs : blocksInv s.blocks)
    (r : Option ApprovalCheckResult) (src : MessageSource)
    (vote : IndirectSignedApprovalVote) :
    blocksInv (s.import_and_circulate_approval r src vote).1.blocks := by
  unfold State.import_and_circulate_approval
  dsimp only
  cases hl : lookupA s.blocks vote.block_hash with
  | none =>
    dsimp only
    cases src.peerId <;> dsimp only <;> exact hs
  | some entry =>
    dsimp only
    have he : entryInv entry := hs _ _ hl
    split_ifs with hcand
    · dsimp only
      cases src.peerId with
      | none =>
        dsimp only
        exact blocksInv_finishApproval hs _ (entryInv_recordKnowledge he _)
          (Knowledge.mem_insert_self entry.knowledge _) _ _ vote
      | some p =>
        dsimp only
        split_ifs with hprec
        · cases hkb : lookupA entry.known_by p with
          | some k =>
            dsimp only
            split_ifs with hdup
            · exact hs
            · exact blocksInv_importApprovalPeerRest hs he _ r p vote _
          | none =>
            dsimp only
            exact blocksInv_importApprovalPeerRest hs he _ r p vote _
        · exact hs
    · dsimp only
      cases src.peerId <;> dsimp only <;> exact hs

theorem blocksInv_newBlocksStep {acc : State × List Output} (hacc : blocksInv acc.1.blocks)
    (mp : BlockApprovalMeta × Option Hash) : blocksInv (newBlocksStep acc mp).1.blocks := by
  unfold newBlocksStep
  cases hl : lookupA acc.1.blocks mp.1.hash with
  | some e => exact hacc
  | none =>
    dsimp only
    cases hp : mp.2 with
    | none => exact hacc
    | some parent =>
      dsimp only
      exact blocksInv_updateA hacc (by intro q k hk; simp [lookupA] at hk) _

theorem blocksInv_handle_new_blocks {s : State} (hs : blocksInv s.blocks)
    (metas : List (BlockApprovalMeta × Option Hash)) :
    blocksInv (s.handle_new_blocks metas).1.blocks := by
  unfold State.handle_new_blocks
  dsimp only
  have h1 : blocksInv (metas.foldl newBlocksStep (s, [])).1.blocks :=
    foldl_fst_inv (fun (st : State) => blocksInv st.blocks) newBlocksStep
      (fun acc mp hacc => blocksInv_newBlocksStep hacc mp) metas (s, []) hs
  refine foldl_fst_inv (fun (st : State) => blocksInv st.blocks) _ ?_ _ _ h1
  intro acc pv hacc
  exact blocksInv_unify_with_peer acc.1.blocks pv.1 _ hacc

theorem lookupA_map_removeKnownBy (bl : Blocks) (p : PeerId) (h : Hash) :
    lookupA (bl.map fun pr => (pr.1, { pr.2 with known_by := removeA pr.2.known_by p })) h
      = (lookupA bl h).map fun e => { e with known_by := removeA e.known_by p } := by
  induction bl with
  | nil => simp [lookupA]
  | cons q rest ih => by_cases hq : q.1 = h <;> simp [lookupA, hq, ih]

theorem blocksInv_step {s : State} (hs : blocksInv s.blocks) (ev : Event) :
    blocksInv (step s ev).1.blocks := by
  cases ev with
  | peerConnected p =>
    show blocksInv (s.handle_peer_connected p).1.blocks
    unfold State.handle_peer_connected
    cases lookupA s.peer_views p <;> exact hs
  | peerDisconnected p =>
    show blocksInv (s.handle_peer_disconnected p).1.blocks
    unfold State.handle_peer_disconnected
    intro h e hl
    dsimp only at hl
    rw [lookupA_map_removeKnownBy] at hl
    cases ho : lookupA s.blocks h with
    | none => rw [ho] at hl; cases hl
    | some e0 =>
      rw [ho] at hl
      obtain rfl := Option.some.inj hl
      exact entryInv_removeKnownBy (hs h e0 ho) p
  | peerViewChange p v =>
    show blocksInv (s.handle_peer_view_change p v).1.blocks
    unfold State.handle_peer_view_change
    dsimp only
    refine foldl_inv blocksInv (cleanupStep p) ?_ _ _
      (blocksInv_unify_with_peer s.blocks p v hs)
    intro acc x hacc
    unfold cleanupStep
    cases hl : lookupA acc x with
    | none => exact hacc
    | some e =>
      dsimp only
      exact blocksInv_updateA hacc (entryInv_removeKnownBy (hacc x e hl) p) _
  | ourViewChange v =>
    show blocksInv (s.handle_our_view_change v).1.blocks
    unfold State.handle_our_view_change
    intro h e hl
    dsimp only at hl
    rw [lookupA_foldl_removeA] at hl
    split_ifs at hl
    exact hs h e hl
  | peerAssignments p msgs =>
    show blocksInv (msgs.foldl (importAssignmentStep p) (s, [])).1.blocks
    refine foldl_fst_inv (fun (st : State) => blocksInv st.blocks)
      (importAssignmentStep p) ?_ msgs (s, []) hs
    intro acc m hacc
    exact blocksInv_import_assignment hacc m.2 (MessageSource.peer p) m.1.1 m.1.2
  | peerApprovals p msgs =>
    show blocksInv (msgs.foldl (importApprovalStep p) (s, [])).1.blocks
    refine foldl_fst_inv (fun (st : State) => blocksInv st.blocks)
      (importApprovalStep p) ?_ msgs (s, []) hs
    intro acc m hacc
    exact blocksInv_import_approval hacc m.2 (MessageSource.peer p) m.1
  | newBlocks metas => exact blocksInv_handle_new_blocks hs metas
  | distributeAssignment cert ci =>
    exact blocksInv_import_assignment hs none MessageSource.loc cert ci
  | distributeApproval vote =>
    exact blocksInv_import_approval hs none MessageSource.loc vote

theorem reachable_blocksInv {s : State} (h : Reachable s) : blocksInv s.blocks := by
  induction h with
  | init => intro h e hl; cases hl
  | next s ev _ ih => exact blocksInv_step ih ev

/-- Same tracked block hashes, and knowledge only grows per block. -/
def monoDom (bl bl' : Blocks) : Prop :=
  (∀ h, lookupA bl h = none ↔ lookupA bl' h = none) ∧
  (∀ h e e', lookupA bl h = some e → lookupA bl' h = some e' →
    ∀ f, f ∈ e.knowledge.known_messages → f ∈ e'.knowledge.known_messages)

theorem monoDom_refl (bl : Blocks) : monoDom bl bl := by
  refine ⟨fun h => Iff.rfl, fun h e e' he he' f hf => ?_⟩
  rw [he] at he'
  obtain rfl := Option.some.inj he'
  exact hf

theorem monoDom_trans {a b c : Blocks} (h1 : monoDom a b) (h2 : monoDom b c) : monoDom a c := by
  refine ⟨fun h => (h1.1 h).trans (h2.1 h), fun h e e' he he' f hf => ?_⟩
  cases hb : lookupA b h with
  | none => rw [(h1.1 h).mpr hb] at he; cases he
  | some eb => exact h2.2 h eb e' hb he' f (h1.2 h e eb he hb f hf)

theorem monoDom_updateA {bl : Blocks} {h : Hash} {e e' : BlockEntry}
    (hl : lookupA bl h = some e)
    (hk : ∀ f, f ∈ e.knowledge.known_messages → f ∈ e'.knowledge.known_messages) :
    monoDom bl (updateA bl h e') := by
  constructor
  · intro h'
    rw [lookupA_updateA]
    by_cases hh : h = h'
    · subst hh
      simp [hl]
    · rw [if_neg hh]
  · intro h' a a' ha ha' f hf
    rw [lookupA_updateA] at ha'
    by_cases hh : h = h'
    · subst hh
      rw [if_pos rfl] at ha'
      obtain rfl := Option.some.inj ha'
      rw [hl] at ha
      obtain rfl := Option.some.inj ha
      exact hk f hf
    · rw [if_neg hh] at ha'
      rw [ha] at ha'
      obtain rfl := Option.some.inj ha'
      exact hf

/-- Generic fold preservation for a reflexive-transitive relation on a
projection of the accumulator. -/
theorem foldl_rel {σ α γ : Type _} (R : γ → γ → Prop) (proj : σ → γ)
    (hrefl : ∀ x, R x x) (htrans : ∀ a b c, R a b → R b c → R a c)
    (g : σ → α → σ) (hg : ∀ acc x, R (proj acc) (proj (g acc x))) :
    ∀ (l : List α) (acc : σ), R (proj acc) (proj (l.foldl g acc)) := by
  intro l
  induction l with
  | nil => exact fun acc => hrefl _
  | cons a t ih => exact fun acc => htrans _ _ _ (hg acc a) (ih (g acc a))

theorem monoDom_unifyWalk (p : PeerId) (fin : BlockNumber) (fuel : Nat) :
    ∀ (bl : Blocks) (blk : Hash), monoDom bl (unifyWalk p fin fuel bl blk).1 := by
  induction fuel with
  | zero => intro bl blk; exact monoDom_refl bl
  | succ n ih =>
    intro bl blk
    unfold unifyWalk
    cases hl : lookupA bl blk with
    | none => exact monoDom_refl bl
    | some entry =>
      dsimp only
      split_ifs with hn
      · cases hkb : lookupA entry.known_by p with
        | some k => exact monoDom_refl bl
        | none =>
          dsimp only
          refine monoDom_trans ?_ (ih _ _)
          exact monoDom_updateA hl fun f hf => hf
      · exact monoDom_refl bl

theorem monoDom_unify_with_peer (bl : Blocks) (p : PeerId) (v : View) :
    monoDom bl (unify_with_peer bl p v).1 := by
  unfold unify_with_peer
  dsimp only
  refine foldl_rel monoDom (fun (acc : Blocks × List Hash) => acc.1)
    monoDom_refl (fun a b c => monoDom_trans)
    (unifyHeadStep p v.finalized_number) ?_ v.heads (bl, [])
  intro acc x
  exact monoDom_unifyWalk p v.finalized_number _ acc.1 x

theorem monoDom_finishAssignment {s : State} {bh : Hash} {e0 : BlockEntry}
    (hl : lookupA s.blocks bh = some e0) {entry : BlockEntry}
    (hk : ∀ f, f ∈ e0.knowledge.known_messages → f ∈ entry.knowledge.known_messages)
    (outs : List Output) (mp : Option PeerId) (a : IndirectAssignmentCert)
    (ci : CandidateIndex) (f : MessageFingerprint) :
    monoDom s.blocks (finishAssignment s bh entry outs mp a ci f).1.blocks := by
  unfold finishAssignment
  dsimp only
  apply monoDom_updateA hl
  intro f' hf'
  rw [recordKnownByAll_knowledge, assignCandidateUpdate_knowledge]
  exact hk f' hf'

theorem monoDom_finishApproval {s : State} {bh : Hash} {e0 : BlockEntry}
    (hl : lookupA s.blocks bh = some e0) {entry : BlockEntry}
    (hk : ∀ f, f ∈ e0.knowledge.known_messages → f ∈ entry.knowledge.known_messages)
    (outs : List Output) (mp : Option PeerId) (vote : IndirectSignedApprovalVote)
    (f : MessageFingerprint) :
    monoDom s.blocks (finishApproval s bh entry outs mp vote f).1.blocks := by
  unfold finishApproval
  dsimp only
  apply monoDom_updateA hl
  intro f' hf'
  rw [recordKnownByAll_knowledge, approvalCandidateUpdate_knowledge]
  exact hk f' hf'

theorem mem_knowledge_recordKnowledge {e : BlockEntry} {f' f : MessageFingerprint}
    (h : f' ∈ e.knowledge.known_messages) :
    f' ∈ (e.recordKnowledge f).knowledge.known_messages :=
  Knowledge.mem_insert_of_mem h

theorem mem_knowledge_recordKnowledge_recordKnownBy {e : BlockEntry}
    {f' f : MessageFingerprint} (h : f' ∈ e.knowledge.known_messages) (p : PeerId) :
    f' ∈ ((e.recordKnowledge f).recordKnownBy p f).knowledge.known_messages := by
  rw [recordKnownBy_knowledge]
  exact Knowledge.mem_insert_of_mem h

theorem monoDom_importAssignmentPeerRest {s : State} {entry : BlockEntry}
    (assignment : IndirectAssignmentCert)
    (hl : lookupA s.blocks assignment.block_hash = some entry)
    (preOuts : List Output) (r : Option AssignmentCheckResult) (p : PeerId)
    (ci : CandidateIndex) (f : MessageFingerprint) :
    monoDom s.blocks (importAssignmentPeerRest s entry preOuts r p assignment ci f).1.blocks := by
  unfold importAssignmentPeerRest
  split_ifs with hmem
  · dsimp only
    exact monoDom_updateA hl fun f' hf' => hf'
  · cases r with
    | none => exact monoDom_refl s.blocks
    | some result =>
      cases result with
      | accepted =>
        exact monoDom_finishAssignment hl
          (fun f' hf' => mem_knowledge_recordKnowledge_recordKnownBy hf' p) _ _ assignment ci f
      | acceptedDuplicate =>
        exact monoDom_finishAssignment hl
          (fun f' hf' => mem_knowledge_recordKnowledge_recordKnownBy hf' p) _ _ assignment ci f
      | tooFarInFuture => exact monoDom_refl s.blocks
      | bad => exact monoDom_refl s.blocks

theorem monoDom_import_assignment (s : State) (r : Option AssignmentCheckResult)
    (src : MessageSource) (a : IndirectAssignmentCert) (ci : CandidateIndex) :
    monoDom s.blocks (s.import_and_circulate_assignment r src a ci).1.blocks := by
  unfold State.import_and_circulate_assignment
  dsimp only
  cases hl : lookupA s.blocks a.block_hash with
  | none =>
    dsimp only
    cases src.peerId <;> dsimp only <;> exact monoDom_refl s.blocks
  | some entry =>
    dsimp only
    cases src.peerId with
    | none =>
      dsimp only
      exact monoDom_finishAssignment hl
        (fun f' hf' => mem_knowledge_recordKnowledge hf') _ _ a ci _
    | some p =>
      dsimp only
      cases hkb : lookupA entry.known_by p with
      | some k =>
        dsimp only
        split_ifs with hdup
        · exact monoDom_refl s.blocks
        · exact monoDom_importAssignmentPeerRest a hl _ r p ci _
      | none =>
        dsimp only
        exact monoDom_importAssignmentPeerRest a hl _ r p ci _

theorem monoDom_importApprovalPeerRest {s : State} {entry : BlockEntry}
    (vote : IndirectSignedApprovalVote)
    (hl : lookupA s.blocks vote.block_hash = some entry)
    (preOuts : List Output) (r : Option ApprovalCheckResult) (p : PeerId)
    (f : MessageFingerprint) :
    monoDom s.blocks (importApprovalPeerRest s entry preOuts r p vote f).1.blocks := by
  unfold importApprovalPeerRest
  split_ifs with hmem
  · dsimp only
    exact monoDom_updateA hl fun f' hf' => hf'
  · cases r with
    | none => exact monoDom_refl s.blocks
    | some result =>
      cases result with
      | accepted =>
        exact monoDom_finishApproval hl
          (fun f' hf' => mem_knowledge_recordKnowledge_recordKnownBy hf' p) _ _ vote f
      | bad => exact monoDom_refl s.blocks

theorem monoDom_import_approval (s : State) (r : Option ApprovalCheckResult)
    (src : MessageSource) (vote : IndirectSignedApprovalVote) :
    monoDom s.blocks (s.import_and_circulate_approval r src vote).1.blocks := by
  unfold State.import_and_circulate_approval
  dsimp only
  cases hl : lookupA s.blocks vote.block_hash with
  | none =>
    dsimp only
    cases src.peerId <;> dsimp only <;> exact monoDom_refl s.blocks
  | some entry =>
    dsimp only
    split_ifs with hcand
    · dsimp only
      cases src.peerId with
      | none =>
        dsimp only
        exact monoDom_finishApproval hl
          (fun f' hf' => mem_knowledge_recordKnowledge hf') _ _ vote _
      | some p =>
        dsimp only
        split_ifs with hprec
        · cases hkb : lookupA entry.known_by p with
          | some k =>
            dsimp only
            split_ifs with hdup
            · exact monoDom_refl s.blocks
            · exact monoDom_importApprovalPeerRest vote hl _ r p _
          | none =>
            dsimp only
            exact monoDom_importApprovalPeerRest vote hl _ r p _
        · exact monoDom_refl s.blocks
    · dsimp only
      cases src.peerId <;> dsimp only <;> exact monoDom_refl s.blocks

theorem monoDom_cleanupStep (p : PeerId) (b : Blocks) (h : Hash) :
    monoDom b (cleanupStep p b h) := by
  unfold cleanupStep
  cases hl : lookupA b h with
  | none => exact monoDom_refl b
  | some e =>
    dsimp only
    exact monoDom_updateA hl fun f hf => hf

theorem monoDom_map_removeKnownBy (bl : Blocks) (p : PeerId) :
    monoDom bl (bl.map fun pr => (pr.1, { pr.2 with known_by := removeA pr.2.known_by p })) := by
  constructor
  · intro h
    rw [lookupA_map_removeKnownBy]
    cases lookupA bl h <;> simp
  · intro h e e' he he' f hf
    rw [lookupA_map_removeKnownBy, he] at he'
    obtain rfl := Option.some.inj he'
    exact hf

/-- Tracked entries persist unchanged (insertion-only phases). -/
def blocksExtends (bl bl' : Blocks) : Prop :=
  ∀ h e, lookupA bl h = some e → lookupA bl' h = some e

theorem blocksExtends_refl (bl : Blocks) : blocksExtends bl bl := fun _ _ he => he

theorem blocksExtends_trans {a b c : Blocks} (h1 : blocksExtends a b)
    (h2 : blocksExtends b c) : blocksExtends a c := fun h e he => h2 h e (h1 h e he)

theorem blocksExtends_newBlocksStep (acc : State × List Output)
    (mp : BlockApprovalMeta × Option Hash) :
    blocksExtends acc.1.blocks (newBlocksStep acc mp).1.blocks := by
  unfold newBlocksStep
  cases hl : lookupA acc.1.blocks mp.1.hash with
  | some e => exact blocksExtends_refl _
  | none =>
    dsimp only
    cases mp.2 with
    | none => exact blocksExtends_refl _
    | some parent =>
      dsimp only
      intro h e he
      rw [lookupA_updateA]
      by_cases hh : mp.1.hash = h
      · subst hh
        rw [hl] at he
        cases he
      · rw [if_neg hh]
        exact he

theorem monoDom_newBlocksUnifyStep (hashes : List Hash) (acc : State × List Output)
    (pv : PeerId × View) :
    monoDom acc.1.blocks (newBlocksUnifyStep hashes acc pv).1.blocks := by
  unfold newBlocksUnifyStep
  dsimp only
  exact monoDom_unify_with_peer acc.1.blocks pv.1 _

/-- C9 core: across one event-loop step, a block tracked before and after
keeps every fingerprint of its previous knowledge. -/
theorem knowledge_mono_step (s : State) (ev : Event) :
    ∀ h e e', lookupA s.blocks h = some e → lookupA (step s ev).1.blocks h = some e' →
      ∀ f, f ∈ e.knowledge.known_messages → f ∈ e'.knowledge.known_messages := by
  cases ev with
  | peerConnected p =>
    intro h e e' he he' f hf
    have : (step s (Event.peerConnected p)).1.blocks = s.blocks := by
      show (s.handle_peer_connected p).1.blocks = s.blocks
      unfold State.handle_peer_connected
      cases lookupA s.peer_views p <;> rfl
    rw [this, he] at he'
    obtain rfl := Option.some.inj he'
    exact hf
  | peerDisconnected p =>
    intro h e e' he he' f hf
    exact (monoDom_map_removeKnownBy s.blocks p).2 h e e' he he' f hf
  | peerViewChange p v =>
    intro h e e' he he' f hf
    have hm : monoDom s.blocks (step s (Event.peerViewChange p v)).1.blocks := by
      show monoDom s.blocks (s.handle_peer_view_change p v).1.blocks
      unfold State.handle_peer_view_change
      dsimp only
      refine monoDom_trans (monoDom_unify_with_peer s.blocks p v) ?_
      exact foldl_rel monoDom id monoDom_refl (fun a b c => monoDom_trans) (cleanupStep p)
        (fun acc x => monoDom_cleanupStep p acc x) _ _
    exact hm.2 h e e' he he' f hf
  | ourViewChange v =>
    intro h e e' he he' f hf
    have : lookupA (step s (Event.ourViewChange v)).1.blocks h =
        if h ∈ ((s.blocks_by_number.filter fun p =>
            decide (p.1 < satAdd1 v.finalized_number)).flatMap Prod.snd) then none
        else lookupA s.blocks h := by
      show lookupA (s.handle_our_view_change v).1.blocks h = _
      unfold State.handle_our_view_change
      dsimp only
      exact lookupA_foldl_removeA _ _ _
    rw [this] at he'
    split_ifs at he'
    rw [he] at he'
    obtain rfl := Option.some.inj he'
    exact hf
  | peerAssignments p msgs =>
    intro h e e' he he' f hf
    have hm : monoDom s.blocks (step s (Event.peerAssignments p msgs)).1.blocks := by
      show monoDom s.blocks (msgs.foldl (importAssignmentStep p) (s, [])).1.blocks
      refine foldl_rel monoDom (fun (st : State × List Output) => st.1.blocks)
        monoDom_refl (fun a b c => monoDom_trans) (importAssignmentStep p) ?_ msgs (s, [])
      intro acc m
      exact monoDom_import_assignment acc.1 m.2 (MessageSource.peer p) m.1.1 m.1.2
    exact hm.2 h e e' he he' f hf
  | peerApprovals p msgs =>
    intro h e e' he he' f hf
    have hm : monoDom s.blocks (step s (Event.peerApprovals p msgs)).1.blocks := by
      show monoDom s.blocks (msgs.foldl (importApprovalStep p) (s, [])).1.blocks
      refine foldl_rel monoDom (fun (st : State × List Output) => st.1.blocks)
        monoDom_refl (fun a b c => monoDom_trans) (importApprovalStep p) ?_ msgs (s, [])
      intro acc m
      exact monoDom_import_approval acc.1 m.2 (MessageSource.peer p) m.1
    exact hm.2 h e e' he he' f hf
  | newBlocks metas =>
    intro h e e' he he' f hf
    have hext : blocksExtends s.blocks (metas.foldl newBlocksStep (s, [])).1.blocks := by
      refine foldl_rel blocksExtends (fun (st : State × List Output) => st.1.blocks)
        blocksExtends_refl (fun a b c => blocksExtends_trans) newBlocksStep ?_ metas (s, [])
      intro acc mp
      exact blocksExtends_newBlocksStep acc mp
    have hm : monoDom (metas.foldl newBlocksStep (s, [])).1.blocks
        (step s (Event.newBlocks metas)).1.blocks := by
      show monoDom _ (s.handle_new_blocks metas).1.blocks
      unfold State.handle_new_blocks
      dsimp only
      refine foldl_rel monoDom (fun (st : State × List Output) => st.1.blocks)
        monoDom_refl (fun a b c => monoDom_trans) _ ?_ _ _
      intro acc pv
      exact monoDom_newBlocksUnifyStep _ acc pv
    exact hm.2 h e e' (hext h e he) he' f hf
  | distributeAssignment cert ci =>
    intro h e e' he he' f hf
    exact (monoDom_import_assignment s none MessageSource.loc cert ci).2 h e e' he he' f hf
  | distributeApproval vote =>
    intro h e e' he he' f hf
    exact (monoDom_import_approval s none MessageSource.loc vote).2 h e e' he he' f hf

/-- Occurrence count of a hash in a list (`Vec<Hash>`). -/
def countOcc : List Hash → Hash → Nat
  | [], _ => 0
  | x :: t, h => (if x = h then 1 else 0) + countOcc t h

/-- Total occurrence count of a hash across all lists of `blocks_by_number`. -/
def hashOccurrences : List (BlockNumber × List Hash) → Hash → Nat
  | [], _ => 0
  | p :: rest, h => countOcc p.2 h + hashOccurrences rest h

theorem countOcc_append (a b : List Hash) (h : Hash) :
    countOcc (a ++ b) h = countOcc a h + countOcc b h := by
  induction a with
  | nil => simp [countOcc]
  | cons x t ih =>
    rw [List.cons_append]
    simp only [countOcc]
    rw [ih]
    omega

theorem mem_iff_countOcc_pos (l : List Hash) (h : Hash) : h ∈ l ↔ 0 < countOcc l h := by
  induction l with
  | nil => simp [countOcc]
  | cons x t ih =>
    rw [List.mem_cons, ih]
    simp only [countOcc]
    by_cases hx : x = h
    · subst hx
      rw [if_pos rfl]
      constructor
      · intro
        omega
      · intro
        exact Or.inl rfl
    · rw [if_neg hx]
      constructor
      · rintro (h1 | h2)
        · exact absurd h1.symm hx
        · omega
      · intro h1
        right
        omega

theorem hashOcc_sublist_le {l1 l2 : List (BlockNumber × List Hash)} (hs : l1.Sublist l2)
    (x : Hash) : hashOccurrences l1 x ≤ hashOccurrences l2 x := by
  induction hs with
  | slnil => exact Nat.le_refl _
  | cons q hsub ih => simp only [hashOccurrences]; omega
  | cons₂ q hsub ih => simp only [hashOccurrences]; omega

theorem hashOcc_filter_le (p : BlockNumber × List Hash → Bool)
    (l : List (BlockNumber × List Hash)) (h : Hash) :
    hashOccurrences (l.filter p) h ≤ hashOccurrences l h :=
  hashOcc_sublist_le (List.filter_sublist l) h

theorem hashOcc_filter_add (p : BlockNumber × List Hash → Bool)
    (l : List (BlockNumber × List Hash)) (h : Hash) :
    hashOccurrences (l.filter p) h +
      hashOccurrences (l.filter fun x => !(p x)) h = hashOccurrences l h := by
  induction l with
  | nil => simp [hashOccurrences]
  | cons q t ih =>
    rw [List.filter_cons, List.filter_cons]
    cases hq : p q <;> simp [hq, hashOccurrences] <;> omega

theorem mem_flatMap_snd (l : List (BlockNumber × List Hash)) (h : Hash) :
    h ∈ l.flatMap Prod.snd ↔ 0 < hashOccurrences l h := by
  induction l with
  | nil => simp [hashOccurrences]
  | cons q t ih =>
    rw [List.flatMap_cons, List.mem_append, ih, mem_iff_countOcc_pos]
    show _ ∨ _ ↔ 0 < countOcc q.2 h + hashOccurrences t h
    omega

theorem hashOcc_updateA_append {bbn : List (BlockNumber × List Hash)} {n : BlockNumber}
    {l : List Hash} (hl : lookupA bbn n = some l) (hsh x : Hash) :
    hashOccurrences (updateA bbn n (l ++ [hsh])) x =
      hashOccurrences bbn x + (if hsh = x then 1 else 0) := by
  induction bbn with
  | nil => simp [lookupA] at hl
  | cons q t ih =>
    obtain ⟨k, v⟩ := q
    rw [lookupA] at hl
    rw [updateA]
    by_cases hk : k = n
    · rw [if_pos hk] at hl
      have hv : v = l := Option.some.inj hl
      rw [if_pos hk]
      simp only [hashOccurrences, countOcc_append, countOcc, hv]
      omega
    · rw [if_neg hk] at hl
      rw [if_neg hk]
      simp only [hashOccurrences]
      rw [ih hl]
      omega

theorem hashOcc_updateA_new {bbn : List (BlockNumber × List Hash)} {n : BlockNumber}
    (hl : lookupA bbn n = none) (hsh x : Hash) :
    hashOccurrences (updateA bbn n [hsh]) x =
      hashOccurrences bbn x + (if hsh = x then 1 else 0) := by
  induction bbn with
  | nil =>
    show hashOccurrences [(n, [hsh])] x = _
    simp only [hashOccurrences, countOcc]
    omega
  | cons q t ih =>
    obtain ⟨k, v⟩ := q
    rw [lookupA] at hl
    rw [updateA]
    by_cases hk : k = n
    · rw [if_pos hk] at hl
      cases hl
    · rw [if_neg hk] at hl
      rw [if_neg hk]
      simp only [hashOccurrences]
      rw [ih hl]
      omega

/-- C10 inductive invariant: each hash is listed at most once across
`blocks_by_number`, and a listed hash is a tracked block. -/
def indexInv (s : State) : Prop :=
  ∀ h, hashOccurrences s.blocks_by_number h ≤ 1 ∧
    (0 < hashOccurrences s.blocks_by_number h → (lookupA s.blocks h).isSome)

theorem monoDom_isSome {bl bl' : Blocks} (h : monoDom bl bl') {x : Hash}
    (hx : (lookupA bl x).isSome) : (lookupA bl' x).isSome := by
  cases hl' : lookupA bl' x with
  | none =>
    rw [(h.1 x).mpr hl'] at hx
    cases hx
  | some e => rfl

theorem import_assignment_bbn (s : State) (r : Option AssignmentCheckResult)
    (src : MessageSource) (a : IndirectAssignmentCert) (ci : CandidateIndex) :
    (s.import_and_circulate_assignment r src a ci).1.blocks_by_number =
      s.blocks_by_number := by
  unfold State.import_and_circulate_assignment importAssignmentPeerRest finishAssignment
  dsimp only
  repeat' split
  all_goals rfl

theorem import_approval_bbn (s : State) (r : Option ApprovalCheckResult)
    (src : MessageSource) (vote : IndirectSignedApprovalVote) :
    (s.import_and_circulate_approval r src vote).1.blocks_by_number =
      s.blocks_by_number := by
  unfold State.import_and_circulate_approval importApprovalPeerRest finishApproval
  dsimp only
  repeat' split
  all_goals rfl

theorem monoDom_handle_peer_view_change (s : State) (p : PeerId) (v : View) :
    monoDom s.blocks (s.handle_peer_view_change p v).1.blocks := by
  unfold State.handle_peer_view_change
  dsimp only
  refine monoDom_trans (monoDom_unify_with_peer s.blocks p v) ?_
  exact foldl_rel monoDom id monoDom_refl (fun a b c => monoDom_trans) (cleanupStep p)
    (fun acc x => monoDom_cleanupStep p acc x) _ _

theorem indexInv_import_assignment {s : State} (hs : indexInv s)
    (r : Option AssignmentCheckResult) (src : MessageSource) (a : IndirectAssignmentCert)
    (ci : CandidateIndex) : indexInv (s.import_and_circulate_assignment r src a ci).1 := by
  intro h
  rw [import_assignment_bbn s r src a ci]
  exact ⟨(hs h).1, fun hpos =>
    monoDom_isSome (monoDom_import_assignment s r src a ci) ((hs h).2 hpos)⟩

theorem indexInv_import_approval {s : State} (hs : indexInv s)
    (r : Option ApprovalCheckResult) (src : MessageSource)
    (vote : IndirectSignedApprovalVote) :
    indexInv (s.import_and_circulate_approval r src vote).1 := by
  intro h
  rw [import_approval_bbn s r src vote]
  exact ⟨(hs h).1, fun hpos =>
    monoDom_isSome (monoDom_import_approval s r src vote) ((hs h).2 hpos)⟩

theorem indexInv_newBlocksStep {acc : State × List Output} (hacc : indexInv acc.1)
    (mp : BlockApprovalMeta × Option Hash) : indexInv (newBlocksStep acc mp).1 := by
  unfold newBlocksStep
  cases hl : lookupA acc.1.blocks mp.1.hash with
  | some e => exact hacc
  | none =>
    dsimp only
    cases hp : mp.2 with
    | none => exact hacc
    | some parent =>
      dsimp only
      have hzero : hashOccurrences acc.1.blocks_by_number mp.1.hash = 0 := by
        by_contra hnz
        have hpos := Nat.pos_of_ne_zero hnz
        have hsome := (hacc mp.1.hash).2 hpos
        rw [hl] at hsome
        cases hsome
      intro x
      cases hbn : lookupA acc.1.blocks_by_number mp.1.number with
      | some l =>
        dsimp only
        constructor
        · rw [hashOcc_updateA_append hbn]
          by_cases hx : mp.1.hash = x
          · subst hx
            rw [if_pos rfl]
            omega
          · rw [if_neg hx]
            have := (hacc x).1
            omega
        · intro hpos
          rw [hashOcc_updateA_append hbn] at hpos
          rw [lookupA_updateA]
          by_cases hx : mp.1.hash = x
          · rw [if_pos hx]
            rfl
          · rw [if_neg hx]
            rw [if_neg hx] at hpos
            exact (hacc x).2 (by omega)
      | none =>
        dsimp only
        constructor
        · rw [hashOcc_updateA_new hbn]
          by_cases hx : mp.1.hash = x
          · subst hx
            rw [if_pos rfl]
            omega
          · rw [if_neg hx]
            have := (hacc x).1
            omega
        · intro hpos
          rw [hashOcc_updateA_new hbn] at hpos
          rw [lookupA_updateA]
          by_cases hx : mp.1.hash = x
          · rw [if_pos hx]
            rfl
          · rw [if_neg hx]
            rw [if_neg hx] at hpos
            exact (hacc x).2 (by omega)

theorem indexInv_newBlocksUnifyStep (hashes : List Hash) {acc : State × List Output}
    (hacc : indexInv acc.1) (pv : PeerId × View) :
    indexInv (newBlocksUnifyStep hashes acc pv).1 := by
  unfold newBlocksUnifyStep
  dsimp only
  intro x
  exact ⟨(hacc x).1, fun hpos =>
    monoDom_isSome (monoDom_unify_with_peer acc.1.blocks pv.1 _) ((hacc x).2 hpos)⟩

theorem indexInv_step {s : State} (hs : indexInv s) (ev : Event) :
    indexInv (step s ev).1 := by
  cases ev with
  | peerConnected p =>
    show indexInv (s.handle_peer_connected p).1
    unfold State.handle_peer_connected
    cases lookupA s.peer_views p with
    | none => exact fun h => hs h
    | some v => exact fun h => hs h
  | peerDisconnected p =>
    show indexInv (s.handle_peer_disconnected p).1
    unfold State.handle_peer_disconnected
    intro h
    refine ⟨(hs h).1, fun hpos => ?_⟩
    show (lookupA (s.blocks.map fun pr =>
      (pr.1, { pr.2 with known_by := removeA pr.2.known_by p })) h).isSome
    rw [lookupA_map_removeKnownBy]
    have hsome := (hs h).2 hpos
    cases hl : lookupA s.blocks h with
    | none => rw [hl] at hsome; cases hsome
    | some e => rfl
  | peerViewChange p v =>
    show indexInv (s.handle_peer_view_change p v).1
    intro h
    refine ⟨(hs h).1, fun hpos => ?_⟩
    exact monoDom_isSome (monoDom_handle_peer_view_change s p v) ((hs h).2 hpos)
  | ourViewChange v =>
    show indexInv (s.handle_our_view_change v).1
    unfold State.handle_our_view_change
    dsimp only
    intro h
    constructor
    · exact Nat.le_trans (hashOcc_filter_le _ _ _) ((hs h).1)
    · intro hpos
      dsimp only at hpos ⊢
      rw [lookupA_foldl_removeA]
      have hadd := hashOcc_filter_add
        (fun q => decide (q.1 < satAdd1 v.finalized_number)) s.blocks_by_number h
      split_ifs with hin
      · exfalso
        rw [mem_flatMap_snd] at hin
        have hone := (hs h).1
        omega
      · apply (hs h).2
        have hle := hashOcc_filter_le
          (fun q => decide (q.1 < satAdd1 v.finalized_number)) s.blocks_by_number h
        omega
  | peerAssignments p msgs =>
    show indexInv (msgs.foldl (importAssignmentStep p) (s, [])).1
    refine foldl_fst_inv indexInv (importAssignmentStep p) ?_ msgs (s, []) hs
    intro acc m hacc
    exact indexInv_import_assignment hacc m.2 (MessageSource.peer p) m.1.1 m.1.2
  | peerApprovals p msgs =>
    show indexInv (msgs.foldl (importApprovalStep p) (s, [])).1
    refine foldl_fst_inv indexInv (importApprovalStep p) ?_ msgs (s, []) hs
    intro acc m hacc
    exact indexInv_import_approval hacc m.2 (MessageSource.peer p) m.1
  | newBlocks metas =>
    show indexInv (s.handle_new_blocks metas).1
    unfold State.handle_new_blocks
    dsimp only
    have h1 : indexInv (metas.foldl newBlocksStep (s, [])).1 :=
      foldl_fst_inv indexInv newBlocksStep
        (fun acc mp hacc => indexInv_newBlocksStep hacc mp) metas (s, []) hs
    refine foldl_fst_inv indexInv _ ?_ _ _ h1
    intro acc pv hacc
    exact indexInv_newBlocksUnifyStep _ hacc pv
  | distributeAssignment cert ci =>
    exact indexInv_import_assignment hs none MessageSource.loc cert ci
  | distributeApproval vote =>
    exact indexInv_import_approval hs none MessageSource.loc vote

theorem reachable_indexInv {s : State} (h : Reachable s) : indexInv s := by
  induction h with
  | init =>
    intro x
    exact ⟨Nat.zero_le _, fun hpos => absurd hpos (by simp [hashOccurrences, initialState])⟩
  | next s ev _ ih => exact indexInv_step ih ev

theorem recordKnownByAll_candidates (e : BlockEntry) (peers : List PeerId)
    (f : MessageFingerprint) : (recordKnownByAll e peers f).candidates = e.candidates := by
  induction peers generalizing e with
  | nil => rfl
  | cons p t ih => rw [recordKnownByAll_cons, ih]; rfl

theorem approvalCandidateUpdate_isSome {e : BlockEntry} {ci : CandidateIndex}
    (vi : ValidatorIndex) (sig : ValidatorSignature)
    (hc : (lookupA e.candidates ci).isSome = true) :
    (lookupA (approvalCandidateUpdate e ci vi sig).candidates ci).isSome = true := by
  unfold approvalCandidateUpdate
  cases hl : lookupA e.candidates ci with
  | none => rw [hl] at hc; cases hc
  | some ce =>
    dsimp only
    rw [lookupA_updateA_self]
    rfl

theorem knownBy_mem_self (e : BlockEntry) (p : PeerId) (f : MessageFingerprint) :
    ∃ k, lookupA (e.recordKnownBy p f).known_by p = some k ∧ f ∈ k.known_messages := by
  refine ⟨((lookupA e.known_by p).getD ⟨[]⟩).insert f, ?_, Knowledge.mem_insert_self _ f⟩
  unfold BlockEntry.recordKnownBy
  rw [lookupA_knownByInsertFp, if_pos rfl]

theorem knownBy_mem_recordKnownBy {e : BlockEntry} {p : PeerId} {f : MessageFingerprint}
    (h : ∃ k, lookupA e.known_by p = some k ∧ f ∈ k.known_messages) (q : PeerId) :
    ∃ k, lookupA (e.recordKnownBy q f).known_by p = some k ∧ f ∈ k.known_messages := by
  obtain ⟨k, hk, hf⟩ := h
  by_cases hq : q = p
  · subst hq
    refine ⟨((lookupA e.known_by q).getD ⟨[]⟩).insert f, ?_, ?_⟩
    · unfold BlockEntry.recordKnownBy
      rw [lookupA_knownByInsertFp, if_pos rfl]
    · exact Knowledge.mem_insert_self _ f
  · refine ⟨k, ?_, hf⟩
    unfold BlockEntry.recordKnownBy
    rw [lookupA_knownByInsertFp, if_neg hq]
    exact hk

theorem knownBy_mem_recordKnownByAll {e : BlockEntry} {p : PeerId} {f : MessageFingerprint}
    (h : ∃ k, lookupA e.known_by p = some k ∧ f ∈ k.known_messages) (peers : List PeerId) :
    ∃ k, lookupA (recordKnownByAll e peers f).known_by p = some k ∧ f ∈ k.known_messages := by
  induction peers generalizing e with
  | nil => exact h
  | cons q t ih =>
    rw [recordKnownByAll_cons]
    exact ih (knownBy_mem_recordKnownBy h q)

theorem knownBy_mem_assignCandidateUpdate {e : BlockEntry} {p : PeerId} {f : MessageFingerprint}
    (h : ∃ k, lookupA e.known_by p = some k ∧ f ∈ k.known_messages) (ci : CandidateIndex)
    (vi : ValidatorIndex) (cert : AssignmentCert) :
    ∃ k, lookupA (assignCandidateUpdate e ci vi cert).known_by p = some k ∧
      f ∈ k.known_messages := by
  rw [assignCandidateUpdate_known_by]
  exact h

theorem knownBy_mem_approvalCandidateUpdate {e : BlockEntry} {p : PeerId} {f : MessageFingerprint}
    (h : ∃ k, lookupA e.known_by p = some k ∧ f ∈ k.known_messages) (ci : CandidateIndex)
    (vi : ValidatorIndex) (sig : ValidatorSignature) :
    ∃ k, lookupA (approvalCandidateUpdate e ci vi sig).known_by p = some k ∧
      f ∈ k.known_messages := by
  rw [approvalCandidateUpdate_known_by]
  exact h

/-- Step 3 fast path: a fingerprint already recorded under the sender's
`known_by` entry yields exactly one COST_DUPLICATE_MESSAGE and nothing else. -/
theorem import_assignment_duplicate {s : State} {p : PeerId} {a : IndirectAssignmentCert}
    {ci : CandidateIndex} {entry : BlockEntry} {k : Knowledge}
    (hl : lookupA s.blocks a.block_hash = some entry)
    (hk : lookupA entry.known_by p = some k)
    (hf : MessageFingerprint.assignment a.block_hash ci a.validator ∈ k.known_messages)
    (r : Option AssignmentCheckResult) :
    s.import_and_circulate_assignment r (MessageSource.peer p) a ci
      = (s, [Output.reportPeer p COST_DUPLICATE_MESSAGE]) := by
  unfold State.import_and_circulate_assignment
  dsimp only
  rw [hl]
  dsimp only [MessageSource.peerId]
  rw [hk]
  dsimp only
  rw [if_pos hf]

theorem import_approval_duplicate {s : State} {p : PeerId}
    {vote : IndirectSignedApprovalVote} {entry : BlockEntry} {k : Knowledge}
    (hl : lookupA s.blocks vote.block_hash = some entry)
    (hc : (lookupA entry.candidates vote.candidate_index).isSome = true)
    (hprec : MessageFingerprint.assignment vote.block_hash vote.candidate_index vote.validator
      ∈ entry.knowledge.known_messages)
    (hk : lookupA entry.known_by p = some k)
    (hf : MessageFingerprint.approval vote.block_hash vote.candidate_index vote.validator
      ∈ k.known_messages)
    (r : Option ApprovalCheckResult) :
    s.import_and_circulate_approval r (MessageSource.peer p) vote
      = (s, [Output.reportPeer p COST_DUPLICATE_MESSAGE]) := by
  unfold State.import_and_circulate_approval
  dsimp only
  rw [hl]
  dsimp only
  rw [if_pos hc]
  dsimp only [MessageSource.peerId]
  rw [if_pos hprec]
  rw [hk]
  dsimp only
  rw [if_pos hf]

/-- Step 5 with a dropped reply channel (peer-sourced assignment): the state
is returned untouched and the outputs are the possible step-3 penalty
followed by the validation request. -/
theorem import_assignment_dropped {s : State} {p : PeerId} {a : IndirectAssignmentCert}
    {ci : CandidateIndex} {entry : BlockEntry}
    (hl : lookupA s.blocks a.block_hash = some entry)
    (hknow : MessageFingerprint.assignment a.block_hash ci a.validator
      ∉ entry.knowledge.known_messages)
    (hnodup : ∀ k, lookupA entry.known_by p = some k →
      MessageFingerprint.assignment a.block_hash ci a.validator ∉ k.known_messages) :
    s.import_and_circulate_assignment none (MessageSource.peer p) a ci
      = (s, (match lookupA entry.known_by p with
             | some _ => ([] : List Output)
             | none => [Output.reportPeer p COST_UNEXPECTED_MESSAGE])
          ++ [Output.checkAndImportAssignment a]) := by
  unfold State.import_and_circulate_assignment importAssignmentPeerRest
  dsimp only
  rw [hl]
  dsimp only [MessageSource.peerId]
  cases hk : lookupA entry.known_by p with
  | some k =>
    dsimp only
    rw [if_neg (hnodup k hk), if_neg hknow]
  | none =>
    dsimp only
    rw [if_neg hknow]

/-- Step 5 with a dropped reply channel (peer-sourced approval). -/
theorem import_approval_dropped {s : State} {p : PeerId}
    {vote : IndirectSignedApprovalVote} {entry : BlockEntry}
    (hl : lookupA s.blocks vote.block_hash = some entry)
    (hc : (lookupA entry.candidates vote.candidate_index).isSome = true)
    (hprec : MessageFingerprint.assignment vote.block_hash vote.candidate_index vote.validator
      ∈ entry.knowledge.known_messages)
    (hknow : MessageFingerprint.approval vote.block_hash vote.candidate_index vote.validator
      ∉ entry.knowledge.known_messages)
    (hnodup : ∀ k, lookupA entry.known_by p = some k →
      MessageFingerprint.approval vote.block_hash vote.candidate_index vote.validator
        ∉ k.known_messages) :
    s.import_and_circulate_approval none (MessageSource.peer p) vote
      = (s, (match lookupA entry.known_by p with
             | some _ => ([] : List Output)
             | none => [Output.reportPeer p COST_UNEXPECTED_MESSAGE])
          ++ [Output.checkAndImportApproval vote]) := by
  unfold State.import_and_circulate_approval importApprovalPeerRest
  dsimp only
  rw [hl]
  dsimp only
  rw [if_pos hc]
  dsimp only [MessageSource.peerId]
  rw [if_pos hprec]
  cases hk : lookupA entry.known_by p with
  | some k =>
    dsimp only
    rw [if_neg (hnodup k hk), if_neg hknow]
  | none =>
    dsimp only
    rw [if_neg hknow]

theorem recordKnowledge_candidates (e : BlockEntry) (f : MessageFingerprint) :
    (e.recordKnowledge f).candidates = e.candidates := rfl

theorem recordKnownBy_candidates (e : BlockEntry) (p : PeerId) (f : MessageFingerprint) :
    (e.recordKnownBy p f).candidates = e.candidates := rfl

/-- If the first peer-sourced assignment import emitted a circulation, the
sender's `known_by` entry of the updated block records the fingerprint. -/
theorem first_import_assignment_records {s : State} {p : PeerId}
    {a : IndirectAssignmentCert} {ci : CandidateIndex} {r1 : Option AssignmentCheckResult}
    {s1 : State} {outs1 : List Output}
    (heq : s.import_and_circulate_assignment r1 (MessageSource.peer p) a ci = (s1, outs1))
    (hcirc : ∃ ps msgs, Output.sendAssignments ps msgs ∈ outs1) :
    ∃ entry3 k, lookupA s1.blocks a.block_hash = some entry3 ∧
      lookupA entry3.known_by p = some k ∧
      MessageFingerprint.assignment a.block_hash ci a.validator ∈ k.known_messages := by
  obtain ⟨ps, msgs, hm⟩ := hcirc
  unfold State.import_and_circulate_assignment at heq
  dsimp only at heq
  cases hl : lookupA s.blocks a.block_hash with
  | none =>
    rw [hl] at heq
    dsimp only [MessageSource.peerId] at heq
    injection heq with h1 h2
    subst h2
    simp at hm
  | some entry =>
    rw [hl] at heq
    dsimp only [MessageSource.peerId] at heq
    have hrest : ∀ (preOuts : List Output),
        (∀ ps' msgs', Output.sendAssignments ps' msgs' ∉ preOuts) →
        importAssignmentPeerRest s entry preOuts r1 p a ci
          (MessageFingerprint.assignment a.block_hash ci a.validator) = (s1, outs1) →
        ∃ entry3 k, lookupA s1.blocks a.block_hash = some entry3 ∧
          lookupA entry3.known_by p = some k ∧
          MessageFingerprint.assignment a.block_hash ci a.validator ∈ k.known_messages := by
      intro preOuts hpre heq2
      unfold importAssignmentPeerRest at heq2
      by_cases hknow : MessageFingerprint.assignment a.block_hash ci a.validator
          ∈ entry.knowledge.known_messages
      · rw [if_pos hknow] at heq2
        injection heq2 with h1 h2
        subst h2
        rcases List.mem_append.mp hm with hmm | hmm
        · exact absurd hmm (hpre ps msgs)
        · simp at hmm
      · rw [if_neg hknow] at heq2
        cases r1 with
        | none =>
          injection heq2 with h1 h2
          subst h2
          rcases List.mem_append.mp hm with hmm | hmm
          · exact absurd hmm (hpre ps msgs)
          · simp at hmm
        | some result =>
          cases result with
          | accepted =>
            unfold finishAssignment at heq2
            dsimp only at heq2
            injection heq2 with h1 h2
            subst h1
            obtain ⟨k, hk, hf⟩ := knownBy_mem_recordKnownByAll
              (knownBy_mem_assignCandidateUpdate
                (knownBy_mem_self (BlockEntry.recordKnowledge entry
                  (MessageFingerprint.assignment a.block_hash ci a.validator)) p
                  (MessageFingerprint.assignment a.block_hash ci a.validator))
                ci a.validator a.cert)
              (circulateTargets s (some p))
            exact ⟨_, k, lookupA_updateA_self _ _ _, hk, hf⟩
          | acceptedDuplicate =>
            unfold finishAssignment at heq2
            dsimp only at heq2
            injection heq2 with h1 h2
            subst h1
            obtain ⟨k, hk, hf⟩ := knownBy_mem_recordKnownByAll
              (knownBy_mem_assignCandidateUpdate
                (knownBy_mem_self (BlockEntry.recordKnowledge entry
                  (MessageFingerprint.assignment a.block_hash ci a.validator)) p
                  (MessageFingerprint.assignment a.block_hash ci a.validator))
                ci a.validator a.cert)
              (circulateTargets s (some p))
            exact ⟨_, k, lookupA_updateA_self _ _ _, hk, hf⟩
          | tooFarInFuture =>
            injection heq2 with h1 h2
            subst h2
            rcases List.mem_append.mp hm with hmm | hmm
            · rcases List.mem_append.mp hmm with hmm2 | hmm2
              · exact absurd hmm2 (hpre ps msgs)
              · simp at hmm2
            · simp at hmm
          | bad =>
            injection heq2 with h1 h2
            subst h2
            rcases List.mem_append.mp hm with hmm | hmm
            · rcases List.mem_append.mp hmm with hmm2 | hmm2
              · exact absurd hmm2 (hpre ps msgs)
              · simp at hmm2
            · simp at hmm
    cases hk0 : lookupA entry.known_by p with
    | some k0 =>
      rw [hk0] at heq
      dsimp only at heq
      by_cases hdup : MessageFingerprint.assignment a.block_hash ci a.validator
          ∈ k0.known_messages
      · rw [if_pos hdup] at heq
        injection heq with h1 h2
        subst h2
        simp at hm
      · rw [if_neg hdup] at heq
        exact hrest [] (by intro ps' msgs' hx; simp at hx) heq
    | none =>
      rw [hk0] at heq
      dsimp only at heq
      exact hrest [Output.reportPeer p COST_UNEXPECTED_MESSAGE]
        (by intro ps' msgs' hx; simp at hx) heq

/-- If the first peer-sourced approval import emitted a circulation, the
updated block still has the candidate, keeps the matching assignment
fingerprint in knowledge, and records the approval under the sender. -/
theorem first_import_approval_records {s : State} {p : PeerId}
    {vote : IndirectSignedApprovalVote} {r1 : Option ApprovalCheckResult}
    {s1 : State} {outs1 : List Output}
    (heq : s.import_and_circulate_approval r1 (MessageSource.peer p) vote = (s1, outs1))
    (hcirc : ∃ ps msgs, Output.sendApprovals ps msgs ∈ outs1) :
    ∃ entry3 k, lookupA s1.blocks vote.block_hash = some entry3 ∧
      (lookupA entry3.candidates vote.candidate_index).isSome = true ∧
      MessageFingerprint.assignment vote.block_hash vote.candidate_index vote.validator
        ∈ entry3.knowledge.known_messages ∧
      lookupA entry3.known_by p = some k ∧
      MessageFingerprint.approval vote.block_hash vote.candidate_index vote.validator
        ∈ k.known_messages := by
  obtain ⟨ps, msgs, hm⟩ := hcirc
  unfold State.import_and_circulate_approval at heq
  dsimp only at heq
  cases hl : lookupA s.blocks vote.block_hash with
  | none =>
    rw [hl] at heq
    dsimp only [MessageSource.peerId] at heq
    injection heq with h1 h2
    subst h2
    simp at hm
  | some entry =>
    rw [hl] at heq
    dsimp only at heq
    by_cases hc : (lookupA entry.candidates vote.candidate_index).isSome = true
    · rw [if_pos hc] at heq
      dsimp only [MessageSource.peerId] at heq
      by_cases hprec : MessageFingerprint.assignment vote.block_hash vote.candidate_index
          vote.validator ∈ entry.knowledge.known_messages
      · rw [if_pos hprec] at heq
        have hrest : ∀ (preOuts : List Output),
            (∀ ps' msgs', Output.sendApprovals ps' msgs' ∉ preOuts) →
            importApprovalPeerRest s entry preOuts r1 p vote
              (MessageFingerprint.approval vote.block_hash vote.candidate_index
                vote.validator) = (s1, outs1) →
            ∃ entry3 k, lookupA s1.blocks vote.block_hash = some entry3 ∧
              (lookupA entry3.candidates vote.candidate_index).isSome = true ∧
              MessageFingerprint.assignment vote.block_hash vote.candidate_index vote.validator
                ∈ entry3.knowledge.known_messages ∧
              lookupA entry3.known_by p = some k ∧
              MessageFingerprint.approval vote.block_hash vote.candidate_index vote.validator
                ∈ k.known_messages := by
          intro preOuts hpre heq2
          unfold importApprovalPeerRest at heq2
          by_cases hknow : MessageFingerprint.approval vote.block_hash vote.candidate_index
              vote.validator ∈ entry.knowledge.known_messages
          · rw [if_pos hknow] at heq2
            injection heq2 with h1 h2
            subst h2
            rcases List.mem_append.mp hm with hmm | hmm
            · exact absurd hmm (hpre ps msgs)
            · simp at hmm
          · rw [if_neg hknow] at heq2
            cases r1 with
            | none =>
              injection heq2 with h1 h2
              subst h2
              rcases List.mem_append.mp hm with hmm | hmm
              · exact absurd hmm (hpre ps msgs)
              · simp at hmm
            | some result =>
              cases result with
              | accepted =>
                unfold finishApproval at heq2
                dsimp only at heq2
                injection heq2 with h1 h2
                subst h1
                obtain ⟨k, hk, hf⟩ := knownBy_mem_recordKnownByAll
                  (knownBy_mem_approvalCandidateUpdate
                    (knownBy_mem_self (BlockEntry.recordKnowledge entry
                      (MessageFingerprint.approval vote.block_hash vote.candidate_index
                        vote.validator)) p
                      (MessageFingerprint.approval vote.block_hash vote.candidate_index
                        vote.validator))
                    vote.candidate_index vote.validator vote.signature)
                  (circulateTargets s (some p))
                refine ⟨recordKnownByAll
                    (approvalCandidateUpdate
                      ((BlockEntry.recordKnowledge entry
                          (MessageFingerprint.approval vote.block_hash vote.candidate_index
                            vote.validator)).recordKnownBy p
                        (MessageFingerprint.approval vote.block_hash vote.candidate_index
                          vote.validator))
                      vote.candidate_index vote.validator vote.signature)
                    (circulateTargets s (some p))
                    (MessageFingerprint.approval vote.block_hash vote.candidate_index
                      vote.validator),
                  k, lookupA_updateA_self _ _ _, ?_, ?_, hk, hf⟩
                · rw [recordKnownByAll_candidates]
                  exact approvalCandidateUpdate_isSome vote.validator vote.signature hc
                · rw [recordKnownByAll_knowledge, approvalCandidateUpdate_knowledge,
                    recordKnownBy_knowledge]
                  exact mem_knowledge_recordKnowledge hprec
              | bad =>
                injection heq2 with h1 h2
                subst h2
                rcases List.mem_append.mp hm with hmm | hmm
                · rcases List.mem_append.mp hmm with hmm2 | hmm2
                  · exact absurd hmm2 (hpre ps msgs)
                  · simp at hmm2
                · simp at hmm
        cases hk0 : lookupA entry.known_by p with
        | some k0 =>
          rw [hk0] at heq
          dsimp only at heq
          by_cases hdup : MessageFingerprint.approval vote.block_hash vote.candidate_index
              vote.validator ∈ k0.known_messages
          · rw [if_pos hdup] at heq
            injection heq with h1 h2
            subst h2
            simp at hm
          · rw [if_neg hdup] at heq
            exact hrest [] (by intro ps' msgs' hx; simp at hx) heq
        | none =>
          rw [hk0] at heq
          dsimp only at heq
          exact hrest [Output.reportPeer p COST_UNEXPECTED_MESSAGE]
            (by intro ps' msgs' hx; simp at hx) heq
      · rw [if_neg hprec] at heq
        injection heq with h1 h2
        subst h2
        simp at hm
    · rw [if_neg hc] at heq
      dsimp only [MessageSource.peerId] at heq
      injection heq with h1 h2
      subst h2
      simp at hm

theorem mem_gossipAssignments (entries : Blocks) (bs : List Hash)
    (ia : IndirectAssignmentCert) (ci : CandidateIndex) :
    (ia, ci) ∈ gossipAssignments entries bs ↔
      ∃ e ce, ia.block_hash ∈ bs ∧ lookupA entries ia.block_hash = some e ∧
        (ci, ce) ∈ e.candidates ∧
        (ia.validator, ApprovalState.assigned ia.cert) ∈ ce.approvals := by
  unfold gossipAssignments
  rw [List.mem_flatMap]
  constructor
  · rintro ⟨b, hb, hmem⟩
    cases hl : lookupA entries b with
    | none => rw [hl] at hmem; simp at hmem
    | some e =>
      rw [hl] at hmem
      rw [List.mem_flatMap] at hmem
      obtain ⟨pce, hpce, hmem2⟩ := hmem
      rw [List.mem_filterMap] at hmem2
      obtain ⟨pva, hpva, hmatch⟩ := hmem2
      cases hst : pva.2 with
      | assigned cert =>
        rw [hst] at hmatch
        dsimp only at hmatch
        obtain h3 := Option.some.inj hmatch
        have h4 : (⟨b, pva.1, cert⟩ : IndirectAssignmentCert) = ia := congrArg Prod.fst h3
        have h5 : pce.1 = ci := congrArg Prod.snd h3
        subst h4
        subst h5
        refine ⟨e, pce.2, hb, hl, hpce, ?_⟩
        rw [← hst]
        exact hpva
      | approved c g =>
        rw [hst] at hmatch
        dsimp only at hmatch
        cases hmatch
  · rintro ⟨e, ce, hb, hl, hc, ha⟩
    refine ⟨ia.block_hash, hb, ?_⟩
    rw [hl]
    rw [List.mem_flatMap]
    refine ⟨(ci, ce), hc, ?_⟩
    rw [List.mem_filterMap]
    exact ⟨(ia.validator, ApprovalState.assigned ia.cert), ha, rfl⟩

theorem mem_gossipApprovals (entries : Blocks) (bs : List Hash)
    (v : IndirectSignedApprovalVote) :
    v ∈ gossipApprovals entries bs ↔
      ∃ e ce cert, v.block_hash ∈ bs ∧ lookupA entries v.block_hash = some e ∧
        (v.candidate_index, ce) ∈ e.candidates ∧
        (v.validator, ApprovalState.approved cert v.signature) ∈ ce.approvals := by
  unfold gossipApprovals
  rw [List.mem_flatMap]
  constructor
  · rintro ⟨b, hb, hmem⟩
    cases hl : lookupA entries b with
    | none => rw [hl] at hmem; simp at hmem
    | some e =>
      rw [hl] at hmem
      rw [List.mem_flatMap] at hmem
      obtain ⟨pce, hpce, hmem2⟩ := hmem
      rw [List.mem_filterMap] at hmem2
      obtain ⟨pva, hpva, hmatch⟩ := hmem2
      cases hst : pva.2 with
      | assigned cert =>
        rw [hst] at hmatch
        dsimp only at hmatch
        cases hmatch
      | approved cert sig =>
        rw [hst] at hmatch
        dsimp only at hmatch
        obtain h3 := Option.some.inj hmatch
        subst h3
        refine ⟨e, pce.2, cert, hb, hl, hpce, ?_⟩
        rw [← hst]
        exact hpva
  · rintro ⟨e, ce, cert, hb, hl, hc, ha⟩
    refine ⟨v.block_hash, hb, ?_⟩
    rw [hl]
    rw [List.mem_flatMap]
    refine ⟨(v.candidate_index, ce), hc, ?_⟩
    rw [List.mem_filterMap]
    exact ⟨(v.validator, ApprovalState.approved cert v.signature), ha, rfl⟩

theorem send_gossip_outputs (entries : Blocks) (peer : PeerId) (bs : List Hash) :
    (∀ ps msgs, Output.sendAssignments ps msgs ∈ send_gossip_messages_to_peer entries peer bs →
      ps = [peer] ∧ msgs = gossipAssignments entries bs ∧ msgs ≠ []) ∧
    (∀ ps msgs, Output.sendApprovals ps msgs ∈ send_gossip_messages_to_peer entries peer bs →
      ps = [peer] ∧ msgs = gossipApprovals entries bs ∧ msgs ≠ []) := by
  unfold send_gossip_messages_to_peer
  dsimp only
  constructor
  · intro ps msgs hmem
    rcases List.mem_append.mp hmem with h | h
    · split_ifs at h with hA
      · simp at h
      · simp only [List.mem_singleton] at h
        obtain ⟨h1, h2⟩ := Output.sendAssignments.inj h
        subst h1
        subst h2
        exact ⟨rfl, rfl, hA⟩
    · split_ifs at h with hB
      · simp at h
      · simp at h
  · intro ps msgs hmem
    rcases List.mem_append.mp hmem with h | h
    · split_ifs at h with hA
      · simp at h
      · simp at h
    · split_ifs at h with hB
      · simp at h
      · simp only [List.mem_singleton] at h
        obtain ⟨h1, h2⟩ := Output.sendApprovals.inj h
        subst h1
        subst h2
        exact ⟨rfl, rfl, hB⟩

theorem send_gossip_nonempty (entries : Blocks) (peer : PeerId) (bs : List Hash) :
    (gossipAssignments entries bs ≠ [] →
      Output.sendAssignments [peer] (gossipAssignments entries bs)
        ∈ send_gossip_messages_to_peer entries peer bs) ∧
    (gossipApprovals entries bs ≠ [] →
      Output.sendApprovals [peer] (gossipApprovals entries bs)
        ∈ send_gossip_messages_to_peer entries peer bs) := by
  unfold send_gossip_messages_to_peer
  dsimp only
  constructor
  · intro hA
    rw [if_neg hA]
    exact List.mem_append_left _ (List.mem_singleton.mpr rfl)
  · intro hB
    rw [if_neg hB]
    exact List.mem_append_right _ (List.mem_singleton.mpr rfl)

/-- Approval state stored for (block, candidate, validator), for reading a
state off a run. -/
def approvalStateAt (s : State) (b : Hash) (c : CandidateIndex) (v : ValidatorIndex) :
    Option ApprovalState :=
  match lookupA s.blocks b with
  | some e =>
    match lookupA e.candidates c with
    | some ce => lookupA ce.approvals v
    | none => none
  | none => none

def ceC1 : CandidateEntry := ⟨[(5, ApprovalState.approved 100 200)]⟩
def eC1 : BlockEntry := ⟨[], 1, 0, ⟨[]⟩, [(0, ceC1)]⟩
def csC1 : State := ⟨[(1, [3])], [(3, eC1)], []⟩
def voteC1 : IndirectSignedApprovalVote := ⟨3, 0, 5, 7⟩

/-- C1: the candidate-state-update step must leave `candidates[C].approvals[V]`
unchanged when it is absent or already `Approved`.  The source `remove`s the
entry before matching and reinserts only in the `Assigned` arm, so an approval
processed while the state is `Approved(cert, sig)` silently deletes the entry:
at the concrete input below the state for validator 5 goes from
`Approved(100, 200)` to absent, contradicting the claim (and the source's own
warn-and-do-nothing intent for this anomaly arm). -/
theorem c1_approved_entry_deleted :
    approvalStateAt csC1 3 0 5 = some (ApprovalState.approved 100 200) ∧
    approvalStateAt (csC1.import_and_circulate_approval none MessageSource.loc voteC1).1
      3 0 5 = none := by decide

def ceC2 : CandidateEntry := ⟨[(5, ApprovalState.approved 9 13)]⟩
def eC2 : BlockEntry := ⟨[], 1, 0, ⟨[]⟩, [(0, ceC2)]⟩
def entriesC2 : Blocks := [(7, eC2)]

/-- C2 counterexample: the claim says an `Approved` validator entry also
contributes its `(AssignmentCert, CandidateIndex)` pair to the batched
assignments message.  In the source the `Approved` arm pushes only into the
approvals batch: with a single `Approved` entry the assignments batch is empty
and no assignments message is sent at all. -/
theorem c2_approved_contributes_no_assignment :
    (5, ApprovalState.approved 9 13) ∈ ceC2.approvals ∧
    (0, ceC2) ∈ eC2.candidates ∧
    lookupA entriesC2 7 = some eC2 ∧
    gossipAssignments entriesC2 [7] = [] ∧
    send_gossip_messages_to_peer entriesC2 1 [7]
      = [Output.sendApprovals [1] [⟨7, 0, 5, 13⟩]] := by decide

/-- C2 (amended): for every selected block set and peer, the batched
assignments message contains exactly the pairs of the validator entries in
the `Assigned` state, the batched approvals message contains exactly the
signed votes of the `Approved` entries (which contribute nothing to the
assignments batch), and an empty batch is not sent. -/
theorem c2_gossip_batches (entries : Blocks) (peer : PeerId) (bs : List Hash) :
    (∀ (ia : IndirectAssignmentCert) (ci : CandidateIndex),
      (ia, ci) ∈ gossipAssignments entries bs ↔
        ∃ e ce, ia.block_hash ∈ bs ∧ lookupA entries ia.block_hash = some e ∧
          (ci, ce) ∈ e.candidates ∧
          (ia.validator, ApprovalState.assigned ia.cert) ∈ ce.approvals) ∧
    (∀ (v : IndirectSignedApprovalVote),
      v ∈ gossipApprovals entries bs ↔
        ∃ e ce cert, v.block_hash ∈ bs ∧ lookupA entries v.block_hash = some e ∧
          (v.candidate_index, ce) ∈ e.candidates ∧
          (v.validator, ApprovalState.approved cert v.signature) ∈ ce.approvals) ∧
    (∀ ps msgs, Output.sendAssignments ps msgs ∈ send_gossip_messages_to_peer entries peer bs →
      ps = [peer] ∧ msgs = gossipAssignments entries bs ∧ msgs ≠ []) ∧
    (∀ ps msgs, Output.sendApprovals ps msgs ∈ send_gossip_messages_to_peer entries peer bs →
      ps = [peer] ∧ msgs = gossipApprovals entries bs ∧ msgs ≠ []) ∧
    (gossipAssignments entries bs ≠ [] →
      Output.sendAssignments [peer] (gossipAssignments entries bs)
        ∈ send_gossip_messages_to_peer entries peer bs) ∧
    (gossipApprovals entries bs ≠ [] →
      Output.sendApprovals [peer] (gossipApprovals entries bs)
        ∈ send_gossip_messages_to_peer entries peer bs) :=
  ⟨mem_gossipAssignments entries bs, mem_gossipApprovals entries bs,
   (send_gossip_outputs entries peer bs).1, (send_gossip_outputs entries peer bs).2,
   (send_gossip_nonempty entries peer bs).1, (send_gossip_nonempty entries peer bs).2⟩

/-- C2 witness: the amended theorem applied at a concrete state with one
`Approved` entry. -/
theorem c2_gossip_batches_witness :
    Output.sendApprovals [1] [⟨7, 0, 5, 13⟩] ∈ send_gossip_messages_to_peer entriesC2 1 [7] ∧
    ([1] = [1] ∧ ([⟨7, 0, 5, 13⟩] : List IndirectSignedApprovalVote)
      = gossipApprovals entriesC2 [7] ∧ ([⟨7, 0, 5, 13⟩] : List IndirectSignedApprovalVote) ≠ []) :=
  ⟨by decide, (c2_gossip_batches entriesC2 1 [7]).2.2.2.1 [1] [⟨7, 0, 5, 13⟩] (by decide)⟩

def eC3 : BlockEntry := ⟨[], u32Max, 0, ⟨[]⟩, []⟩
def csC3 : State := ⟨[(u32Max, [9])], [(9, eC3)], []⟩

def eC3b : BlockEntry := ⟨[], 1, 0, ⟨[]⟩, []⟩
def csC3b : State := ⟨[], [(9, eC3b)], []⟩

/-- C3 counterexample: with finalized number `u32::MAX` the saturating
`finalized_number + 1` stays at `u32::MAX`, so a block at number `u32::MAX`
(≤ F) survives pruning and its key remains in `blocks_by_number`,
contradicting the claim for the maximal representable block number; and in a
state whose block is not listed in `blocks_by_number`, a block numbered 1
survives an OurViewChange with finalized 3, so the claim also needs the
blocks-are-indexed precondition it quantified away with "for every state". -/
theorem c3_saturation_keeps_max_block :
    ((csC3.handle_our_view_change ⟨[], u32Max⟩).1.blocks_by_number = [(u32Max, [9])] ∧
     lookupA (csC3.handle_our_view_change ⟨[], u32Max⟩).1.blocks 9 = some eC3 ∧
     eC3.number ≤ u32Max) ∧
    (lookupA (csC3b.handle_our_view_change ⟨[], 3⟩).1.blocks 9 = some eC3b ∧
     eC3b.number ≤ 3) := by decide

/-- Boolean check that a tracked block's hash is listed under its number. -/
def listedAtB (s : State) (h : Hash) (n : BlockNumber) : Bool :=
  match lookupA s.blocks_by_number n with
  | some l => decide (h ∈ l)
  | none => false

/-- C3 (amended): provided every tracked block is listed under its number in
`blocks_by_number` and the finalized number is below `u32::MAX` (so the
saturating increment is exact), after `handle_our_view_change` no block entry
with number ≤ F remains and every remaining `blocks_by_number` key is
strictly greater than F. -/
theorem c3_pruning_amended (s : State) (v : View)
    (hidx : ∀ pr ∈ s.blocks, listedAtB s pr.1 pr.2.number = true)
    (hF : v.finalized_number < u32Max) :
    (∀ h e, lookupA (s.handle_our_view_change v).1.blocks h = some e →
      v.finalized_number < e.number) ∧
    (∀ n l, lookupA (s.handle_our_view_change v).1.blocks_by_number n = some l →
      v.finalized_number < n) := by
  have hsat : satAdd1 v.finalized_number = v.finalized_number + 1 := by
    unfold satAdd1
    exact if_pos hF
  constructor
  · intro h e he
    unfold State.handle_our_view_change at he
    dsimp only at he
    rw [lookupA_foldl_removeA] at he
    split_ifs at he with hin
    by_contra hle
    push_neg at hle
    have hmem := lookupA_mem he
    have hl2 := hidx (h, e) hmem
    unfold listedAtB at hl2
    cases hbn : lookupA s.blocks_by_number e.number with
    | none => rw [hbn] at hl2; cases hl2
    | some l =>
      rw [hbn] at hl2
      have hml : h ∈ l := of_decide_eq_true hl2
      apply hin
      rw [List.mem_flatMap]
      refine ⟨(e.number, l), ?_, hml⟩
      rw [List.mem_filter]
      refine ⟨lookupA_mem hbn, ?_⟩
      show decide (e.number < satAdd1 v.finalized_number) = true
      rw [hsat]
      exact decide_eq_true (Nat.lt_succ_of_le hle)
  · intro n l hl
    unfold State.handle_our_view_change at hl
    dsimp only at hl
    have hmem := lookupA_mem hl
    have hp : (!decide (n < satAdd1 v.finalized_number)) = true :=
      (List.mem_filter.mp hmem).2
    have hp2 : decide (n < satAdd1 v.finalized_number) = false := by
      cases hdec : decide (n < satAdd1 v.finalized_number)
      · rfl
      · rw [hdec] at hp
        cases hp
    have hlt : ¬(n < satAdd1 v.finalized_number) := of_decide_eq_false hp2
    rw [hsat] at hlt
    exact Nat.le_of_not_lt hlt

def csC3w : State :=
  ⟨[(1, [7]), (5, [8])],
   [(7, ⟨[], 1, 0, ⟨[]⟩, []⟩), (8, ⟨[], 5, 0, ⟨[]⟩, []⟩)], []⟩

/-- C3 witness: the amended pruning theorem applied at a two-block state
with finalized number 3. -/
theorem c3_pruning_amended_witness :
    (∀ pr ∈ csC3w.blocks, listedAtB csC3w pr.1 pr.2.number = true) ∧
    (3 : BlockNumber) < u32Max ∧
    ((∀ h e, lookupA (csC3w.handle_our_view_change ⟨[], 3⟩).1.blocks h = some e →
        3 < e.number) ∧
     (∀ n l, lookupA (csC3w.handle_our_view_change ⟨[], 3⟩).1.blocks_by_number n = some l →
        3 < n)) :=
  ⟨by decide, by decide, c3_pruning_amended csC3w ⟨[], 3⟩ (by decide) (by decide)⟩

/-- C4: in every reachable state, a fingerprint recorded in any peer's
`known_by` for a tracked block is also in that block's own `knowledge`, and
this subset relation is preserved by every event handler. -/
theorem c4_known_by_subset_knowledge :
    (∀ s, Reachable s → ∀ h e, lookupA s.blocks h = some e →
      ∀ p k, lookupA e.known_by p = some k →
        ∀ f, f ∈ k.known_messages → f ∈ e.knowledge.known_messages) ∧
    (∀ (s : State) (ev : Event),
      (∀ h e, lookupA s.blocks h = some e →
        ∀ p k, lookupA e.known_by p = some k →
          ∀ f, f ∈ k.known_messages → f ∈ e.knowledge.known_messages) →
      (∀ h e, lookupA (step s ev).1.blocks h = some e →
        ∀ p k, lookupA e.known_by p = some k →
          ∀ f, f ∈ k.known_messages → f ∈ e.knowledge.known_messages)) :=
  ⟨fun _ hr => reachable_blocksInv hr, fun _ ev hs => blocksInv_step hs ev⟩

/-- C4 witness: the invariant at the reachable state obtained by one
NewBlocks event from the initial state. -/
theorem c4_known_by_subset_knowledge_witness :
    Reachable (step initialState (Event.newBlocks [(⟨4, 1⟩, some 0)])).1 ∧
    (∀ h e, lookupA (step initialState (Event.newBlocks [(⟨4, 1⟩, some 0)])).1.blocks h
        = some e →
      ∀ p k, lookupA e.known_by p = some k →
        ∀ f, f ∈ k.known_messages → f ∈ e.knowledge.known_messages) :=
  ⟨Reachable.next _ _ Reachable.init,
   c4_known_by_subset_knowledge.1 _ (Reachable.next _ _ Reachable.init)⟩

/-- C5: a peer-sourced approval whose block is tracked and whose candidate
exists, but whose matching assignment fingerprint is not in the block's
knowledge, is answered by exactly one COST_UNEXPECTED_MESSAGE report; the
state is unchanged and nothing is circulated. -/
theorem c5_approval_before_assignment (s : State) (p : PeerId)
    (vote : IndirectSignedApprovalVote) (r : Option ApprovalCheckResult)
    (entry : BlockEntry)
    (hl : lookupA s.blocks vote.block_hash = some entry)
    (hc : (lookupA entry.candidates vote.candidate_index).isSome = true)
    (hprec : MessageFingerprint.assignment vote.block_hash vote.candidate_index vote.validator
      ∉ entry.knowledge.known_messages) :
    s.import_and_circulate_approval r (MessageSource.peer p) vote
      = (s, [Output.reportPeer p COST_UNEXPECTED_MESSAGE]) := by
  unfold State.import_and_circulate_approval
  dsimp only
  rw [hl]
  dsimp only
  rw [if_pos hc]
  dsimp only [MessageSource.peerId]
  rw [if_neg hprec]

def eC5 : BlockEntry := ⟨[], 1, 0, ⟨[]⟩, [(0, CandidateEntry.mk [])]⟩
def csC5 : State := ⟨[(1, [4])], [(4, eC5)], [(2, ⟨[4], 0⟩)]⟩
def voteC5 : IndirectSignedApprovalVote := ⟨4, 0, 5, 99⟩

/-- C5 witness: the precedence law applied at a concrete state. -/
theorem c5_approval_before_assignment_witness :
    lookupA csC5.blocks voteC5.block_hash = some eC5 ∧
    (lookupA eC5.candidates voteC5.candidate_index).isSome = true ∧
    MessageFingerprint.assignment voteC5.block_hash voteC5.candidate_index voteC5.validator
      ∉ eC5.knowledge.known_messages ∧
    csC5.import_and_circulate_approval none (MessageSource.peer 2) voteC5
      = (csC5, [Output.reportPeer 2 COST_UNEXPECTED_MESSAGE]) :=
  ⟨by decide, by decide, by decide,
   c5_approval_before_assignment csC5 2 voteC5 none eC5 (by decide) (by decide) (by decide)⟩

/-- C6: once a first import of a peer-sourced message succeeds (a circulation
is emitted), importing the identical message from the same peer again yields
exactly one COST_DUPLICATE_MESSAGE, no further circulation, and an unchanged
state — for assignments and for approvals. -/
theorem c6_second_import_is_duplicate :
    (∀ (s : State) (p : PeerId) (a : IndirectAssignmentCert) (ci : CandidateIndex)
        (r1 r2 : Option AssignmentCheckResult) (s1 : State) (outs1 : List Output),
      s.import_and_circulate_assignment r1 (MessageSource.peer p) a ci = (s1, outs1) →
      (∃ ps msgs, Output.sendAssignments ps msgs ∈ outs1) →
      s1.import_and_circulate_assignment r2 (MessageSource.peer p) a ci
        = (s1, [Output.reportPeer p COST_DUPLICATE_MESSAGE])) ∧
    (∀ (s : State) (p : PeerId) (vote : IndirectSignedApprovalVote)
        (r1 r2 : Option ApprovalCheckResult) (s1 : State) (outs1 : List Output),
      s.import_and_circulate_approval r1 (MessageSource.peer p) vote = (s1, outs1) →
      (∃ ps msgs, Output.sendApprovals ps msgs ∈ outs1) →
      s1.import_and_circulate_approval r2 (MessageSource.peer p) vote
        = (s1, [Output.reportPeer p COST_DUPLICATE_MESSAGE])) := by
  constructor
  · intro s p a ci r1 r2 s1 outs1 heq hcirc
    obtain ⟨e3, k, h1, h2, h3⟩ := first_import_assignment_records heq hcirc
    exact import_assignment_duplicate h1 h2 h3 r2
  · intro s p vote r1 r2 s1 outs1 heq hcirc
    obtain ⟨e3, k, h1, h2, h3, h4, h5⟩ := first_import_approval_records heq hcirc
    exact import_approval_duplicate h1 h2 h3 h4 h5 r2

def eC6 : BlockEntry := ⟨[(1, ⟨[]⟩)], 1, 0, ⟨[]⟩, []⟩
def csC6 : State := ⟨[(1, [4])], [(4, eC6)], [(1, ⟨[4], 0⟩), (2, ⟨[4], 0⟩)]⟩
def aC6 : IndirectAssignmentCert := ⟨4, 5, 11⟩

/-- C6 witness: a concrete accepted first import followed by the duplicate. -/
theorem c6_second_import_is_duplicate_witness :
    Output.sendAssignments [2] [(aC6, 0)] ∈
      (csC6.import_and_circulate_assignment (some AssignmentCheckResult.accepted)
        (MessageSource.peer 1) aC6 0).2 ∧
    (csC6.import_and_circulate_assignment (some AssignmentCheckResult.accepted)
        (MessageSource.peer 1) aC6 0).1.import_and_circulate_assignment
        (some AssignmentCheckResult.accepted) (MessageSource.peer 1) aC6 0
      = ((csC6.import_and_circulate_assignment (some AssignmentCheckResult.accepted)
          (MessageSource.peer 1) aC6 0).1,
         [Output.reportPeer 1 COST_DUPLICATE_MESSAGE]) :=
  ⟨by decide,
   c6_second_import_is_duplicate.1 csC6 1 aC6 0 (some AssignmentCheckResult.accepted)
     (some AssignmentCheckResult.accepted) _ _ rfl ⟨[2], [(aC6, 0)], by decide⟩⟩

def eC7 : BlockEntry := ⟨[], 1, 0, ⟨[]⟩, []⟩
def csC7 : State := ⟨[(1, [4])], [(4, eC7)], []⟩
def aC7 : IndirectAssignmentCert := ⟨4, 5, 11⟩

/-- C7 counterexample: a peer-sourced assignment that reaches the validation
step (the CheckAndImportAssignment request is emitted) with a dropped reply
channel, but whose sender had no `known_by` entry, has already been charged
COST_UNEXPECTED_MESSAGE at the peer-known check — so the run is not free of
reputation changes as the claim states. -/
theorem c7_dropped_reply_reputation :
    csC7.import_and_circulate_assignment none (MessageSource.peer 2) aC7 0
      = (csC7, [Output.reportPeer 2 COST_UNEXPECTED_MESSAGE,
                Output.checkAndImportAssignment aC7]) := by decide

/-- C7 (amended): when the reply channel from Approval Voting is dropped the
message is discarded with no mutation of any state, no circulation, and no
reputation change other than the COST_UNEXPECTED_MESSAGE already applied at
the earlier peer-known check (none at all when the sender has a `known_by`
entry for the block) — for assignments and approvals. -/
theorem c7_dropped_reply_amended :
    (∀ (s : State) (p : PeerId) (a : IndirectAssignmentCert) (ci : CandidateIndex)
        (entry : BlockEntry), lookupA s.blocks a.block_hash = some entry →
      MessageFingerprint.assignment a.block_hash ci a.validator
        ∉ entry.knowledge.known_messages →
      (∀ k, lookupA entry.known_by p = some k →
        MessageFingerprint.assignment a.block_hash ci a.validator ∉ k.known_messages) →
      (s.import_and_circulate_assignment none (MessageSource.peer p) a ci).1 = s ∧
      (∀ ps msgs, Output.sendAssignments ps msgs
        ∉ (s.import_and_circulate_assignment none (MessageSource.peer p) a ci).2) ∧
      (∀ ps msgs, Output.sendApprovals ps msgs
        ∉ (s.import_and_circulate_assignment none (MessageSource.peer p) a ci).2) ∧
      (∀ q rep, Output.reportPeer q rep
          ∈ (s.import_and_circulate_assignment none (MessageSource.peer p) a ci).2 →
        q = p ∧ rep = COST_UNEXPECTED_MESSAGE ∧ lookupA entry.known_by p = none) ∧
      Output.checkAndImportAssignment a
        ∈ (s.import_and_circulate_assignment none (MessageSource.peer p) a ci).2) ∧
    (∀ (s : State) (p : PeerId) (vote : IndirectSignedApprovalVote)
        (entry : BlockEntry), lookupA s.blocks vote.block_hash = some entry →
      (lookupA entry.candidates vote.candidate_index).isSome = true →
      MessageFingerprint.assignment vote.block_hash vote.candidate_index vote.validator
        ∈ entry.knowledge.known_messages →
      MessageFingerprint.approval vote.block_hash vote.candidate_index vote.validator
        ∉ entry.knowledge.known_messages →
      (∀ k, lookupA entry.known_by p = some k →
        MessageFingerprint.approval vote.block_hash vote.candidate_index vote.validator
          ∉ k.known_messages) →
      (s.import_and_circulate_approval none (MessageSource.peer p) vote).1 = s ∧
      (∀ ps msgs, Output.sendAssignments ps msgs
        ∉ (s.import_and_circulate_approval none (MessageSource.peer p) vote).2) ∧
      (∀ ps msgs, Output.sendApprovals ps msgs
        ∉ (s.import_and_circulate_approval none (MessageSource.peer p) vote).2) ∧
      (∀ q rep, Output.reportPeer q rep
          ∈ (s.import_and_circulate_approval none (MessageSource.peer p) vote).2 →
        q = p ∧ rep = COST_UNEXPECTED_MESSAGE ∧ lookupA entry.known_by p = none) ∧
      Output.checkAndImportApproval vote
        ∈ (s.import_and_circulate_approval none (MessageSource.peer p) vote).2) := by
  constructor
  · intro s p a ci entry hl hknow hnodup
    have hdrop := import_assignment_dropped hl hknow hnodup
    cases hk : lookupA entry.known_by p with
    | some k =>
      rw [hk] at hdrop
      rw [hdrop]
      refine ⟨rfl, ?_, ?_, ?_, ?_⟩
      · intro ps msgs hx
        simp at hx
      · intro ps msgs hx
        simp at hx
      · intro q rep hx
        simp at hx
      · simp
    | none =>
      rw [hk] at hdrop
      rw [hdrop]
      refine ⟨rfl, ?_, ?_, ?_, ?_⟩
      · intro ps msgs hx
        simp at hx
      · intro ps msgs hx
        simp at hx
      · intro q rep hx
        simp at hx
        exact ⟨hx.1, hx.2, rfl⟩
      · simp
  · intro s p vote entry hl hc hprec hknow hnodup
    have hdrop := import_approval_dropped hl hc hprec hknow hnodup
    cases hk : lookupA entry.known_by p with
    | some k =>
      rw [hk] at hdrop
      rw [hdrop]
      refine ⟨rfl, ?_, ?_, ?_, ?_⟩
      · intro ps msgs hx
        simp at hx
      · intro ps msgs hx
        simp at hx
      · intro q rep hx
        simp at hx
      · simp
    | none =>
      rw [hk] at hdrop
      rw [hdrop]
      refine ⟨rfl, ?_, ?_, ?_, ?_⟩
      · intro ps msgs hx
        simp at hx
      · intro ps msgs hx
        simp at hx
      · intro q rep hx
        simp at hx
        exact ⟨hx.1, hx.2, rfl⟩
      · simp

def eC7w : BlockEntry := ⟨[(2, ⟨[]⟩)], 1, 0, ⟨[]⟩, []⟩
def csC7w : State := ⟨[(1, [4])], [(4, eC7w)], [(2, ⟨[4], 0⟩)]⟩

/-- C7 witness: the amended theorem applied where the sender has a `known_by`
entry, so the run has no reputation change at all. -/
theorem c7_dropped_reply_amended_witness :
    lookupA csC7w.blocks aC7.block_hash = some eC7w ∧
    ((csC7w.import_and_circulate_assignment none (MessageSource.peer 2) aC7 0).1 = csC7w ∧
     (∀ ps msgs, Output.sendAssignments ps msgs
       ∉ (csC7w.import_and_circulate_assignment none (MessageSource.peer 2) aC7 0).2) ∧
     (∀ ps msgs, Output.sendApprovals ps msgs
       ∉ (csC7w.import_and_circulate_assignment none (MessageSource.peer 2) aC7 0).2) ∧
     (∀ q rep, Output.reportPeer q rep
         ∈ (csC7w.import_and_circulate_assignment none (MessageSource.peer 2) aC7 0).2 →
       q = 2 ∧ rep = COST_UNEXPECTED_MESSAGE ∧ lookupA eC7w.known_by 2 = none) ∧
     Output.checkAndImportAssignment aC7
       ∈ (csC7w.import_and_circulate_assignment none (MessageSource.peer 2) aC7 0).2) :=
  ⟨by decide,
   c7_dropped_reply_amended.1 csC7w 2 aC7 0 eC7w (by decide) (by decide)
     (by intro k hk; rw [show lookupA eC7w.known_by 2 = some ⟨[]⟩ from by decide] at hk;
         cases hk; decide)⟩

theorem handle_peer_connected_some {s : State} {p : PeerId} {v : View}
    (hv : lookupA s.peer_views p = some v) : s.handle_peer_connected p = (s, []) := by
  unfold State.handle_peer_connected
  rw [hv]

theorem handle_peer_connected_lookup (s : State) (p : PeerId) :
    ∃ v, lookupA (s.handle_peer_connected p).1.peer_views p = some v := by
  unfold State.handle_peer_connected
  cases hv : lookupA s.peer_views p with
  | some v => exact ⟨v, hv⟩
  | none =>
    dsimp only
    exact ⟨⟨[], 0⟩, lookupA_updateA_self _ _ _⟩

/-- C8: PeerConnected for a peer that already has a `peer_views` entry leaves
the whole state unchanged; a blank view is inserted only for an absent peer,
so the handler is idempotent. -/
theorem c8_peer_connected_idempotent :
    (∀ (s : State) (p : PeerId) (v : View), lookupA s.peer_views p = some v →
      s.handle_peer_connected p = (s, [])) ∧
    (∀ (s : State) (p : PeerId),
      (s.handle_peer_connected p).1.handle_peer_connected p
        = ((s.handle_peer_connected p).1, [])) := by
  refine ⟨fun s p v hv => handle_peer_connected_some hv, fun s p => ?_⟩
  obtain ⟨v, hv⟩ := handle_peer_connected_lookup s p
  exact handle_peer_connected_some hv

def csC8 : State := ⟨[], [], [(3, ⟨[2], 1⟩)]⟩

/-- C8 witness: the idempotence applied at a state already containing peer 3. -/
theorem c8_peer_connected_idempotent_witness :
    lookupA csC8.peer_views 3 = some ⟨[2], 1⟩ ∧
    csC8.handle_peer_connected 3 = (csC8, []) :=
  ⟨by decide, c8_peer_connected_idempotent.1 csC8 3 ⟨[2], 1⟩ (by decide)⟩

/-- C9: across every event handler, a block hash tracked both before and
after the event keeps every fingerprint of its previous knowledge: no
operation removes a fingerprint from a live block entry's knowledge. -/
theorem c9_knowledge_never_shrinks (s : State) (ev : Event) :
    ∀ h e e', lookupA s.blocks h = some e →
      lookupA (step s ev).1.blocks h = some e' →
      ∀ f, f ∈ e.knowledge.known_messages → f ∈ e'.knowledge.known_messages :=
  knowledge_mono_step s ev

def eC9 : BlockEntry := ⟨[], 1, 0, ⟨[MessageFingerprint.assignment 5 0 7]⟩, []⟩
def csC9 : State := ⟨[(1, [5])], [(5, eC9)], []⟩
def eC9' : BlockEntry :=
  ⟨[], 1, 0, ⟨[MessageFingerprint.assignment 5 0 2, MessageFingerprint.assignment 5 0 7]⟩, []⟩

/-- C9 witness: a local assignment distribution grows the knowledge of block 5
and the old fingerprint is still present afterwards. -/
theorem c9_knowledge_never_shrinks_witness :
    lookupA csC9.blocks 5 = some eC9 ∧
    lookupA (step csC9 (Event.distributeAssignment ⟨5, 2, 9⟩ 0)).1.blocks 5 = some eC9' ∧
    MessageFingerprint.assignment 5 0 7 ∈ eC9.knowledge.known_messages ∧
    MessageFingerprint.assignment 5 0 7 ∈ eC9'.knowledge.known_messages :=
  ⟨by decide, by decide, by decide,
   c9_knowledge_never_shrinks csC9 (Event.distributeAssignment ⟨5, 2, 9⟩ 0) 5 eC9 eC9'
     (by decide) (by decide) _ (by decide)⟩

/-- C10: in every reachable state, each block hash occurs at most once across
all the lists stored in `blocks_by_number`: an already-tracked (or
header-less) NewBlocks meta is skipped and never appended again. -/
theorem c10_blocks_by_number_no_duplicates :
    ∀ s, Reachable s → ∀ h, hashOccurrences s.blocks_by_number h ≤ 1 :=
  fun _ hr h => (reachable_indexInv hr h).1

/-- C10 witness: the bound at the reachable state produced by a NewBlocks
event that lists the same hash twice. -/
theorem c10_blocks_by_number_no_duplicates_witness :
    Reachable (step initialState
      (Event.newBlocks [(⟨4, 1⟩, some 0), (⟨4, 1⟩, some 0)])).1 ∧
    hashOccurrences (step initialState
      (Event.newBlocks [(⟨4, 1⟩, some 0), (⟨4, 1⟩, some 0)])).1.blocks_by_number 4 ≤ 1 :=
  ⟨Reachable.next _ _ Reachable.init,
   c10_blocks_by_number_no_duplicates _ (Reachable.next _ _ Reachable.init) 4⟩

end ApprovalDist
